import Mathlib

/-!
Verification of the in-memory filesystem (`memfs`) of the `wfs` repository:
a shallow embedding of `memfs/store.go` (the sorted key/value store) and
`memfs/memfs.go` (the `MemFS` facade and `MemFile` handle) into Lean.

Go strings are modelled as `List Char` (paths here are ASCII, where Go's
byte-wise ordering coincides with `Char`-wise lexicographic ordering);
Go byte slices as `List Nat`; `fs.FileMode` (a `uint32` bitfield) as `Nat`
with the directory bit `fs.ModeDir = 1 <<< 31`; the Go map
`map[string]*value` as an association list with Go-map lookup semantics;
in-place pointer mutation as replacement of the binding at the entry's key.
Stateful methods take and return the `Store` explicitly.
-/

/-- Go `string` (a byte sequence; ASCII throughout this code base). -/
abbrev Str := List Char

instance (priority := low) {ε α : Type} [DecidableEq ε] [DecidableEq α] :
    DecidableEq (Except ε α) := fun a b =>
  match a, b with
  | .error e, .error e' => decidable_of_iff (e = e') (by simp)
  | .error _, .ok _ => isFalse (by simp)
  | .ok _, .error _ => isFalse (by simp)
  | .ok v, .ok v' => decidable_of_iff (v = v') (by simp)

/-- `fs.ModeDir = 1 << 31`, the directory bit of `fs.FileMode`. -/
def modeDir : Nat := 2 ^ 31

/-- `value` from `memfs/store.go`: works as `fs.DirEntry` or `fs.FileInfo`.
`modTime` is modelled as a `Nat` tick (the memfs code never sets it). -/
structure Value where
  name : Str
  data : List Nat
  mode : Nat
  modTime : Nat
  isDir : Bool
deriving DecidableEq

/-- Kind of a Go `fs` error found in a `fs.PathError`. -/
inductive ErrKind where
  | invalid
  | notExist
  | notDir
deriving DecidableEq

/-- `fs.PathError`: operation name, offending path, and cause. -/
structure PathError where
  op : String
  path : Str
  err : ErrKind
deriving DecidableEq

/-- `strings.Split(s, "/")` (Go semantics: `Split("", "/") = [""]`,
`Split("/a", "/") = ["", "a"]`). -/
def splitSlash : Str → List Str
  | [] => [[]]
  | c :: rest =>
    if c = '/' then [] :: splitSlash rest
    else
      match splitSlash rest with
      | [] => [[c]]
      | s :: ss => (c :: s) :: ss

/-- `strings.Join(l, "/")`. -/
def joinSlash : List Str → Str
  | [] => []
  | [s] => s
  | s :: s' :: ss => s ++ '/' :: joinSlash (s' :: ss)

/-- The element-processing loop of Go `path.Clean`, on the list of
slash-separated segments: drops empty and `.` segments, resolves `..`
against the accumulator (dropping a leading `..` when the path is rooted). -/
def cleanLoop (rooted : Bool) (acc : List Str) : List Str → List Str
  | [] => acc.reverse
  | seg :: rest =>
    if seg = [] ∨ seg = ['.'] then cleanLoop rooted acc rest
    else if seg = ['.', '.'] then
      match acc with
      | [] => if rooted then cleanLoop rooted [] rest else cleanLoop rooted [seg] rest
      | top :: acc' =>
        if top = ['.', '.'] then cleanLoop rooted (seg :: acc) rest
        else cleanLoop rooted acc' rest
    else cleanLoop rooted (seg :: acc) rest

/-- Go `path.Clean` (standard library), by its documented lexical rules:
collapse multiple slashes, drop `.` segments, resolve `..` segments against
the preceding segment, drop `..` at the root of a rooted path; the result is
`.` when everything cancels in a relative path, `/` in a rooted one. -/
def clean (p : Str) : Str :=
  if p = [] then ['.']
  else
    let rooted : Bool := decide (p.head? = some '/')
    let segs := cleanLoop rooted [] (splitSlash p)
    if segs = [] then (if rooted then ['/'] else ['.'])
    else (if rooted then '/' :: joinSlash segs else joinSlash segs)

/-- Go `path.Join(a, b)` (two arguments): skip leading empty elements, join
the rest with `/`, and `Clean` the result; all-empty input yields `""`. -/
def join2 (a b : Str) : Str :=
  if a = [] then (if b = [] then [] else clean b) else clean (a ++ '/' :: b)

/-- Go `path.Join(elems...)`: `Clean` of the slash-join starting at the
first non-empty element; `""` when all elements are empty. -/
def goJoin (elems : List Str) : Str :=
  match elems.dropWhile (fun e => decide (e = [])) with
  | [] => []
  | l => clean (joinSlash l)

/-- `(*MemFS).key`: `path.Clean(path.Join(fsys.dir, name))`. -/
def memKey (fdir name : Str) : Str := clean (join2 fdir name)

/-- `fs.ValidPath` (standard library): `.`, or one or more slash-separated
elements none of which is empty, `.`, or `..`. -/
def validPath (name : Str) : Bool :=
  name = ['.'] ||
    (splitSlash name).all fun e =>
      decide (e ≠ []) && decide (e ≠ ['.']) && decide (e ≠ ['.', '.'])

/-- Go `path.Dir`: everything up to and including the final slash, cleaned;
`.` when the path holds no slash. -/
def dirPath (p : Str) : Str :=
  clean ((p.reverse.dropWhile (fun c => decide (c ≠ '/'))).reverse)

/-- Lookup in the Go map `map[string]*value`, modelled on an association
list. -/
def mapGet : List (Str × Value) → Str → Option Value
  | [], _ => none
  | kv :: rest, k => if kv.1 = k then some kv.2 else mapGet rest k

/-- `delete(m, k)` on the Go map. -/
def mapDelete (m : List (Str × Value)) (k : Str) : List (Str × Value) :=
  m.filter fun kv => decide (kv.1 ≠ k)

/-- `m[k] = v` on the Go map. -/
def mapPut (m : List (Str × Value)) (k : Str) (v : Value) : List (Str × Value) :=
  (k, v) :: mapDelete m k

/-- `store` from `memfs/store.go`: the sorted key list plus the key-to-value
map. -/
structure Store where
  keys : List Str
  values : List (Str × Value)
deriving DecidableEq

/-- `newStore()`. -/
def emptyStore : Store := { keys := [], values := [] }

/-- `store.get`. -/
def storeGet (s : Store) (k : Str) : Option Value := mapGet s.values k

/-- `store.put`: if the key is new, append it to the key list and re-sort
(`sort.Strings`; on `Char` lists with a total order any sorted permutation
is the same list, so `insertionSort` computes `sort.Strings`' result), then
assign into the map. -/
def storePut (s : Store) (k : Str) (v : Value) : Store :=
  if (mapGet s.values k).isSome then { s with values := mapPut s.values k v }
  else
    { keys := List.insertionSort (· ≤ ·) (s.keys ++ [k]),
      values := mapPut s.values k v }

/-- The loop of Go `sort.Search(n, f)` with `f(h) = keys[h] >= x`, as used
by `sort.SearchStrings`. The `fuel` argument only bounds the iteration
count so that the recursion is structural: the window `j - i` shrinks by at
least one per step, so any `fuel ≥ j - i` computes the loop's exact
result. -/
def searchGo (keys : List Str) (x : Str) : Nat → Nat → Nat → Nat
  | 0, i, _ => i
  | fuel + 1, i, j =>
    if i < j then
      if x ≤ keys.getD ((i + j) / 2) [] then searchGo keys x fuel i ((i + j) / 2)
      else searchGo keys x fuel ((i + j) / 2 + 1) j
    else i

/-- `sort.SearchStrings(keys, x)`: the search loop over the window
`[0, len(keys))`, whose width bounds the iteration count. -/
def searchStrs (keys : List Str) (x : Str) : Nat :=
  searchGo keys x keys.length 0 keys.length

/-- `store.keyIndex`: binary search, `-1` when the key is not at the found
position. -/
def keyIndex (s : Store) (k : Str) : Int :=
  if searchStrs s.keys k < s.keys.length ∧ s.keys.getD (searchStrs s.keys k) [] = k
  then (searchStrs s.keys k : Int) else -1

/-- `store.remove`: drop the key at the binary-search index and delete the
map binding, returning the removed value; no-op returning `nil` (`none`)
when the key is absent. -/
def storeRemove (s : Store) (k : Str) : Store × Option Value :=
  if keyIndex s k = -1 then (s, none)
  else
    ({ keys := s.keys.take (keyIndex s k).toNat ++ s.keys.drop ((keyIndex s k).toNat + 1),
       values := mapDelete s.values k },
     mapGet s.values k)

/-- `store.removeAll`: locate `prefix` by binary search, walk forward while
`strings.HasPrefix(key, prefix)` holds deleting map bindings, then slice the
whole run out of the key list. Note the Go code tests the raw `prefix`,
without appending `"/"`. -/
def storeRemoveAll (s : Store) (p : Str) : Store :=
  if keyIndex s p = -1 then s
  else
    { keys := s.keys.take (keyIndex s p).toNat ++
        s.keys.drop ((keyIndex s p).toNat +
          ((s.keys.drop (keyIndex s p).toNat).takeWhile (fun k => p.isPrefixOf k)).length),
      values := ((s.keys.drop (keyIndex s p).toNat).takeWhile
        (fun k => p.isPrefixOf k)).foldl (fun m k => mapDelete m k) s.values }

/-- The local `prefix` of `store.prefixKeys` after the loop prologue: the
argument with a trailing `"/"` ensured. -/
def childPfx (pfx : Str) : Str :=
  if pfx.getLast? = some '/' then pfx else pfx ++ ['/']

/-- `store.prefixKeys`: direct children of `prefix` — the contiguous run of
keys extending `prefix + "/"` just after `prefix` itself, with keys whose
remainder still contains a separator filtered out. -/
def prefixKeys (s : Store) (pfx : Str) : List Str :=
  if keyIndex s pfx = -1 then []
  else
    ((s.keys.drop ((keyIndex s pfx).toNat + 1)).takeWhile
        (fun k => (childPfx pfx).isPrefixOf k)).filter
      (fun k => !((k.drop (childPfx pfx).length).contains '/'))

/-- `(*MemFS).open` (the internal lookup helper): validate the path, look
the key up, `ErrNotExist` when absent. -/
def memOpen (fdir : Str) (s : Store) (name : Str) : Except PathError Value :=
  if ¬ validPath name then .error ⟨"Open", name, .invalid⟩
  else
    match storeGet s (memKey fdir name) with
    | none => .error ⟨"Open", name, .notExist⟩
    | some v => .ok v

/-- The loop body of `(*MemFS).mkdirAll`, iterating over the precomputed
per-index data `(path.Join(keys[0:i+1]...), keys[i])` for each index `i`
into the segments of the absolute key: an existing non-directory at
`fsys.key(joined)` aborts with `ErrInvalid`, an absent key receives a fresh
directory entry with mode `mode | fs.ModeDir` named after the segment
(`"."` for the empty leading segment). -/
def mkdirAllGo (fdir d : Str) (mode : Nat) : List (Str × Str) → Store → Store × Option PathError
  | [], s => (s, none)
  | (joined, k) :: rest, s =>
    let pk := memKey fdir joined
    match storeGet s pk with
    | some v =>
      if v.isDir then mkdirAllGo fdir d mode rest s
      else (s, some ⟨"MkdirAll", d, .invalid⟩)
    | none =>
      let nm := if k = [] then ['.'] else k
      mkdirAllGo fdir d mode rest
        (storePut s pk
          { name := nm, data := [], mode := Nat.lor mode modeDir, modTime := 0, isDir := true })

/-- The iteration data of the `mkdirAll` loop over segment list `segs`:
for each `i`, `path.Join(segs[0:i+1]...)` paired with `segs[i]`. -/
def mkdirSteps (segs : List Str) : List (Str × Str) :=
  (List.range segs.length).map fun i => (goJoin (segs.take (i + 1)), segs.getD i [])

/-- `(*MemFS).mkdirAll`: validate, split the absolute key on `/`, and walk
the prefixes. -/
def mkdirAllFS (fdir : Str) (s : Store) (d : Str) (mode : Nat) : Store × Option PathError :=
  if ¬ validPath d then (s, some ⟨"MkdirAll", d, .invalid⟩)
  else mkdirAllGo fdir d mode (mkdirSteps (splitSlash (memKey fdir d))) s

/-- `(*MemFS).create`: validate, ensure parent directories, then create or
reuse the entry at the key; an existing directory there is `ErrInvalid`. -/
def createFS (fdir : Str) (s : Store) (name : Str) (mode : Nat) :
    Store × Except PathError Value :=
  if ¬ validPath name then (s, .error ⟨"Create", name, .invalid⟩)
  else
    match mkdirAllFS fdir s (dirPath name) mode with
    | (s₁, some e) => (s₁, .error e)
    | (s₁, none) =>
      match storeGet s₁ (memKey fdir name) with
      | none =>
        let v : Value :=
          { name := memKey fdir name, data := [], mode := mode, modTime := 0, isDir := false }
        (storePut s₁ (memKey fdir name) v, .ok v)
      | some v =>
        if v.isDir then (s₁, .error ⟨"Create", name, .invalid⟩) else (s₁, .ok v)

/-- `(*MemFS).WriteFile`: `create`, then replace the entry's `data` in place
(modelled as overwriting the binding at the entry's key), reporting
`len(p)` bytes written. -/
def writeFileFS (fdir : Str) (s : Store) (name : Str) (p : List Nat) (mode : Nat) :
    Store × Except PathError Nat :=
  match createFS fdir s name mode with
  | (s₁, .error e) => (s₁, .error e)
  | (s₁, .ok v) =>
    ({ s₁ with values := mapPut s₁.values (memKey fdir name) { v with data := p } },
     .ok p.length)

/-- `(*MemFS).ReadFile`: open, reject directories with `ErrInvalid`, return
the entry's data. -/
def readFileFS (fdir : Str) (s : Store) (name : Str) : Except PathError (List Nat) :=
  match memOpen fdir s name with
  | .error e => .error e
  | .ok v => if v.isDir then .error ⟨"ReadFile", name, .invalid⟩ else .ok v.data

/-- `(*MemFS).ReadDir`: open, reject non-directories with `ENOTDIR`, return
the entries of the direct-children keys (each key returned by `prefixKeys`
is a key of the map whenever the store is consistent). -/
def readDirFS (fdir : Str) (s : Store) (d : Str) : Except PathError (List Value) :=
  match memOpen fdir s d with
  | .error e => .error e
  | .ok v =>
    if ¬ v.isDir then .error ⟨"ReadDir", d, .notDir⟩
    else .ok ((prefixKeys s (memKey fdir d)).filterMap (storeGet s))

/-- `(*MemFS).Sub`: validate that `d` names an existing directory and
return the sub-filesystem's root prefix `path.Join(fsys.dir, d)`; the store
is shared, so the result is just the new prefix string. -/
def subFS (fdir : Str) (s : Store) (d : Str) : Except PathError Str :=
  if ¬ validPath d then .error ⟨"Sub", d, .invalid⟩
  else
    match memOpen fdir s d with
    | .error e => .error e
    | .ok v => if ¬ v.isDir then .error ⟨"Sub", d, .invalid⟩ else .ok (join2 fdir d)

/-- `(*MemFS).RemoveFile`: validate the path, delegate to `store.remove`,
and return `nil` regardless of whether the key existed. -/
def removeFileFS (fdir : Str) (s : Store) (name : Str) : Store × Option PathError :=
  if ¬ validPath name then (s, some ⟨"RemoveFile", name, .invalid⟩)
  else ((storeRemove s (memKey fdir name)).1, none)

/-- `(*MemFS).RemoveAll`: validate the path, delegate to `store.removeAll`. -/
def removeAllFS (fdir : Str) (s : Store) (p : Str) : Store × Option PathError :=
  if ¬ validPath p then (s, some ⟨"RemoveAll", p, .invalid⟩)
  else (storeRemoveAll s (memKey fdir p), none)

/-- `bytes.Buffer`: backing bytes plus the read offset (`Bytes()` returns
the unread portion). -/
structure Buffer where
  data : List Nat
  off : Nat
deriving DecidableEq

/-- `buf.Bytes()` (empty for the `nil` buffer of a directory handle). -/
def bufBytes : Option Buffer → List Nat
  | none => []
  | some b => b.data.drop b.off

/-- `MemFile` from `memfs/memfs.go`: the per-open handle. `fdir` stands for
the `fsys` back pointer (the owning instance's root prefix; the store is
passed explicitly to the methods that touch it). -/
structure MemFile where
  fdir : Str
  name : Str
  buf : Option Buffer
  mode : Nat
  dirRead : Bool
  dirEntries : List Value
  dirIndex : Nat
  wrote : Bool
deriving DecidableEq

/-- `(*MemFS).Open`: look the entry up and build a handle; files pre-load
the read buffer from the entry's data, directories get a `nil` buffer. -/
def openFS (fdir : Str) (s : Store) (name : Str) : Except PathError MemFile :=
  match memOpen fdir s name with
  | .error e => .error e
  | .ok v =>
    .ok { fdir := fdir, name := name,
          buf := if v.isDir then none else some { data := v.data, off := 0 },
          mode := v.mode, dirRead := false, dirEntries := [], dirIndex := 0,
          wrote := false }

/-- `(*MemFS).CreateFile`: `create`, then return a writable handle with an
empty write buffer. -/
def createFileFS (fdir : Str) (s : Store) (name : Str) (mode : Nat) :
    Store × Except PathError MemFile :=
  match createFS fdir s name mode with
  | (s₁, .error e) => (s₁, .error e)
  | (s₁, .ok _) =>
    (s₁, .ok { fdir := fdir, name := name, buf := some { data := [], off := 0 },
               mode := mode, dirRead := false, dirEntries := [], dirIndex := 0,
               wrote := false })

/-- `(*MemFile).Write`: set the dirty flag and append to the buffer;
`none` models the nil-pointer panic of writing to a directory handle. -/
def MemFile.write (f : MemFile) (p : List Nat) : Option (MemFile × Nat) :=
  match f.buf with
  | none => none
  | some b => some ({ f with buf := some { b with data := b.data ++ p }, wrote := true }, p.length)

/-- `(*MemFile).Close`: when dirty, commit the buffered bytes through
`(*MemFS).WriteFile` (the returned `Bool` records that this store write
happened); otherwise drop the cached directory entries. The dirty flag is
never cleared. -/
def MemFile.close (f : MemFile) (s : Store) : MemFile × Store × Bool × Option PathError :=
  if f.wrote then
    match writeFileFS f.fdir s f.name (bufBytes f.buf) f.mode with
    | (s', .ok _) => (f, s', true, none)
    | (s', .error e) => (f, s', true, some e)
  else ({ f with dirEntries := [] }, s, false, none)

/-- The error type of `(*MemFile).ReadDir`: a filesystem `PathError` or
`io.EOF`. -/
inductive DirError where
  | pe (e : PathError)
  | eof
deriving DecidableEq

/-- The cursor step of `(*MemFile).ReadDir`, after the child list is
cached: serve up to `n` entries from `dirIndex` (all remaining when
`n <= 0`), `io.EOF` when exhausted with `n > 0`, and an empty success when
exhausted with `n <= 0`. -/
def readDirStep (f : MemFile) (n : Int) : MemFile × Except DirError (List Value) :=
  if f.dirIndex ≥ f.dirEntries.length then
    if n ≤ 0 then (f, .ok []) else (f, .error .eof)
  else
    let n' := if n ≤ 0 then f.dirEntries.length - f.dirIndex else n.toNat
    let e := min (f.dirIndex + n') f.dirEntries.length
    ({ f with dirIndex := e },
     .ok ((f.dirEntries.drop f.dirIndex).take (e - f.dirIndex)))

/-- `(*MemFile).ReadDir`: on the first call mark the handle as read and
fetch the child list through `(*MemFS).ReadDir` (kept for the handle's
lifetime, even when the fetch fails); then serve from the cache. -/
def MemFile.readDir (f : MemFile) (s : Store) (n : Int) :
    MemFile × Except DirError (List Value) :=
  if f.dirRead then readDirStep f n
  else
    match readDirFS f.fdir s f.name with
    | .error e => ({ f with dirRead := true }, .error (.pe e))
    | .ok es => readDirStep { f with dirRead := true, dirEntries := es } n

/-- The root prefix `"/"` of a top-level `MemFS` (`New()`). -/
def rootStr : Str := ['/']

/-! ## Order and prefix lemmas on `Str`

Go compares strings byte-wise; on the ASCII strings of this code base that
is the `Char`-wise lexicographic order of `List Char` (`List.Lex (· < ·)`).
-/

theorem le_nil_eq_nil {a : Str} (h : a ≤ ([] : Str)) : a = [] := by
  cases a with
  | nil => rfl
  | cons x xs => exact absurd (List.nil_lt_cons x xs) (not_lt_of_ge h)

theorem head_le_of_le {x y : Char} {l m : Str} (h : x :: l ≤ y :: m) : x ≤ y := by
  rcases lt_or_eq_of_le h with h' | h'
  · exact List.head_le_of_lt h'
  · cases h'; exact le_rfl

theorem cons_le_cons_inv {x : Char} {l l' : Str} (h : x :: l ≤ x :: l') : l ≤ l' := by
  rcases lt_or_eq_of_le h with h' | h'
  · rcases h' with _ | h2 | h3
    · exact le_of_lt h2
    · exact absurd h3 (lt_irrefl x)
  · cases h'; exact le_rfl

/-- A prefix of a string sorts at or before it. -/
theorem pfx_le : ∀ {p a : Str}, p <+: a → p ≤ a := by
  intro p
  induction p with
  | nil => intro a _; exact List.nil_le
  | cons x p' ih =>
    intro a hpa
    obtain ⟨t, ht⟩ := hpa
    subst ht
    exact List.cons_le_cons x (ih ⟨t, rfl⟩)

/-- Strings sharing a prefix `p` form an interval in the lexicographic
order: anything between two extensions of `p` also extends `p`. -/
theorem pfx_interval : ∀ {p a b c : Str},
    p <+: a → p <+: c → a ≤ b → b ≤ c → p <+: b := by
  intro p
  induction p with
  | nil => intro a b c _ _ _ _; exact List.nil_prefix
  | cons x p' ih =>
    intro a b c hpa hpc hab hbc
    obtain ⟨ta, hta⟩ := hpa
    obtain ⟨tc, htc⟩ := hpc
    subst hta; subst htc
    cases b with
    | nil =>
      have : (x :: (p' ++ ta) : Str) = [] := le_nil_eq_nil hab
      exact absurd this (by simp)
    | cons y b' =>
      have hxy : x ≤ y := by
        have := hab
        simpa using head_le_of_le (by simpa using this)
      have hyx : y ≤ x := by
        have := hbc
        simpa using head_le_of_le (by simpa using this)
      have hxy' : x = y := le_antisymm hxy hyx
      subst hxy'
      have h1 : (p' ++ ta : Str) ≤ b' := cons_le_cons_inv (by simpa using hab)
      have h2 : b' ≤ (p' ++ tc : Str) := cons_le_cons_inv (by simpa using hbc)
      have hres := ih (List.prefix_append p' ta) (List.prefix_append p' tc) h1 h2
      obtain ⟨t, rfl⟩ := hres
      exact ⟨t, rfl⟩

/-! ## Binary-search correctness (`sort.Search`) -/

theorem getD_of_lt (l : List Str) (n : Nat) (h : n < l.length) :
    l.getD n [] = l.get ⟨n, h⟩ := by
  simp [List.getD_eq_getElem?_getD, List.getElem?_eq_getElem h, List.get_eq_getElem]

theorem sorted_getD_le {l : List Str} (hs : List.Sorted (· ≤ ·) l) {a b : Nat}
    (hab : a ≤ b) (hb : b < l.length) : l.getD a [] ≤ l.getD b [] := by
  rcases eq_or_lt_of_le hab with rfl | hlt
  · exact le_rfl
  · rw [getD_of_lt l a (lt_trans hlt hb), getD_of_lt l b hb]
    exact hs.rel_get_of_lt hlt

/-- `searchGo` with enough fuel computes the least index `r` in `[i, j]`
such that everything before `r` is `< x` and everything from `r` on is
`≥ x`, given a sorted key list and consistent window invariants. -/
theorem searchGo_spec {keys : List Str} {x : Str} (hs : List.Sorted (· ≤ ·) keys) :
    ∀ (fuel i j : Nat), j - i ≤ fuel → i ≤ j → j ≤ keys.length →
    (∀ m, m < i → keys.getD m [] < x) →
    (∀ m, j ≤ m → m < keys.length → x ≤ keys.getD m []) →
    i ≤ searchGo keys x fuel i j ∧ searchGo keys x fuel i j ≤ j ∧
    (∀ m, m < searchGo keys x fuel i j → keys.getD m [] < x) ∧
    (∀ m, searchGo keys x fuel i j ≤ m → m < keys.length → x ≤ keys.getD m []) := by
  intro fuel
  induction fuel with
  | zero =>
    intro i j hfuel hij hjl hleft hright
    have hij' : i = j := by omega
    subst hij'
    exact ⟨le_rfl, le_rfl, hleft, hright⟩
  | succ fuel ih =>
    intro i j hfuel hij hjl hleft hright
    by_cases hij2 : i < j
    · have hmlo : i ≤ (i + j) / 2 := by omega
      have hmhi : (i + j) / 2 < j := by omega
      have hmlen : (i + j) / 2 < keys.length := lt_of_lt_of_le hmhi hjl
      simp only [searchGo, if_pos hij2]
      by_cases hcmp : x ≤ keys.getD ((i + j) / 2) []
      · rw [if_pos hcmp]
        have hright' : ∀ m, (i + j) / 2 ≤ m → m < keys.length → x ≤ keys.getD m [] := by
          intro m hm hmlt
          exact le_trans hcmp (sorted_getD_le hs hm hmlt)
        obtain ⟨r1, r2, r3, r4⟩ :=
          ih i ((i + j) / 2) (by omega) hmlo (le_of_lt hmlen) hleft hright'
        exact ⟨r1, le_trans r2 (le_of_lt hmhi), r3, r4⟩
      · rw [if_neg hcmp]
        have hmid : keys.getD ((i + j) / 2) [] < x := lt_of_not_le hcmp
        have hleft' : ∀ m, m < (i + j) / 2 + 1 → keys.getD m [] < x := by
          intro m hm
          have hm' : m ≤ (i + j) / 2 := by omega
          exact lt_of_le_of_lt (sorted_getD_le hs hm' hmlen) hmid
        obtain ⟨r1, r2, r3, r4⟩ :=
          ih ((i + j) / 2 + 1) j (by omega) (by omega) hjl hleft' hright
        exact ⟨le_trans (by omega) r1, r2, r3, r4⟩
    · simp only [searchGo, if_neg hij2]
      have : i = j := by omega
      exact ⟨le_rfl, le_of_eq this, hleft, fun m hm hml => hright m (this ▸ hm) hml⟩

/-! ## Go-map lemmas -/

theorem mapGet_mapPut_self (m : List (Str × Value)) (k : Str) (v : Value) :
    mapGet (mapPut m k v) k = some v := by
  simp [mapPut, mapGet]

theorem mapGet_mapDelete (m : List (Str × Value)) (k k' : Str) :
    mapGet (mapDelete m k) k' = if k' = k then none else mapGet m k' := by
  induction m with
  | nil => simp [mapDelete, mapGet]
  | cons kv rest ih =>
    by_cases h1 : kv.1 = k
    · have hd : mapDelete (kv :: rest) k = mapDelete rest k := by
        simp [mapDelete, List.filter_cons, h1]
      rw [hd, ih]
      by_cases h2 : k' = k
      · simp [h2]
      · rw [if_neg h2, if_neg h2]
        have h3 : ¬ kv.1 = k' := fun hc => h2 ((hc.symm.trans h1).symm ▸ rfl)
        simp [mapGet, h3]
    · have hd : mapDelete (kv :: rest) k = kv :: mapDelete rest k := by
        simp [mapDelete, List.filter_cons, h1]
      rw [hd]
      by_cases h3 : kv.1 = k'
      · have h2 : ¬ k' = k := fun hh => h1 (h3.symm ▸ hh ▸ rfl)
        simp [mapGet, h3, h2]
      · simp [mapGet, h3, ih]

theorem mapGet_mapPut_ne (m : List (Str × Value)) (k : Str) (v : Value) (k' : Str)
    (h : k' ≠ k) : mapGet (mapPut m k v) k' = mapGet m k' := by
  have h' : ¬ (k : Str) = k' := fun hc => h hc.symm
  simp [mapPut, mapGet, h', mapGet_mapDelete, h]

theorem mapGet_eq_some_mem {m : List (Str × Value)} {k : Str} {v : Value}
    (h : mapGet m k = some v) : (k, v) ∈ m := by
  induction m with
  | nil => simp [mapGet] at h
  | cons kv rest ih =>
    by_cases h1 : kv.1 = k
    · simp only [mapGet, if_pos h1] at h
      have h2 : kv.2 = v := by injection h
      cases kv
      simp only at h1 h2
      subst h1
      subst h2
      exact List.mem_cons_self _ _
    · simp only [mapGet, if_neg h1] at h
      exact List.mem_cons_of_mem _ (ih h)

theorem mapGet_isSome_mem {m : List (Str × Value)} {k : Str}
    (h : (mapGet m k).isSome = true) : ∃ v, (k, v) ∈ m := by
  rcases ho : mapGet m k with _ | v
  · rw [ho] at h; simp at h
  · exact ⟨v, mapGet_eq_some_mem ho⟩

theorem mem_foldl_mapDelete {m : List (Str × Value)} {kv : Str × Value} :
    ∀ {l : List Str}, kv ∈ l.foldl (fun acc k => mapDelete acc k) m → kv ∈ m := by
  intro l
  induction l generalizing m with
  | nil => intro h; exact h
  | cons a l ih =>
    intro h
    have := ih h
    exact (List.mem_filter.mp this).1

theorem mapGet_foldl_mapDelete (m : List (Str × Value)) (k : Str) :
    ∀ (l : List Str), mapGet (l.foldl (fun acc x => mapDelete acc x) m) k =
      if k ∈ l then none else mapGet m k := by
  intro l
  induction l generalizing m with
  | nil => simp
  | cons a l ih =>
    simp only [List.foldl_cons]
    rw [ih]
    by_cases h1 : k ∈ l
    · simp [h1]
    · by_cases h2 : k = a
      · simp [h1, h2, mapGet_mapDelete]
      · simp [h1, h2, mapGet_mapDelete]

/-! ## `keyIndex` correctness -/

theorem keyIndex_cases (s : Store) (k : Str) :
    keyIndex s k = -1 ∨
    ∃ n : Nat, keyIndex s k = (n : Int) ∧ n < s.keys.length ∧ s.keys.getD n [] = k := by
  by_cases h : searchStrs s.keys k < s.keys.length ∧ s.keys.getD (searchStrs s.keys k) [] = k
  · right
    refine ⟨searchStrs s.keys k, ?_, h.1, h.2⟩
    unfold keyIndex
    rw [if_pos h]
  · left
    unfold keyIndex
    rw [if_neg h]

theorem keyIndex_not_mem {s : Store} {k : Str} (h : k ∉ s.keys) : keyIndex s k = -1 := by
  rcases keyIndex_cases s k with h1 | ⟨n, h1, h2, h3⟩
  · exact h1
  · exfalso
    apply h
    rw [← h3, getD_of_lt _ _ h2]
    exact List.get_mem _ _ _

theorem keyIndex_mem {s : Store} {k : Str} (hs : List.Sorted (· ≤ ·) s.keys)
    (hk : k ∈ s.keys) :
    ∃ n : Nat, keyIndex s k = (n : Int) ∧ n < s.keys.length ∧ s.keys.getD n [] = k ∧
      ∀ m, m < n → s.keys.getD m [] < k := by
  obtain ⟨r1, r2, r3, r4⟩ := searchGo_spec hs s.keys.length 0 s.keys.length
    (by omega) (by omega) le_rfl (fun m hm => absurd hm (Nat.not_lt_zero m))
    (fun m hm hml => absurd (lt_of_lt_of_le hml hm) (lt_irrefl _))
  obtain ⟨t, ht⟩ := List.mem_iff_get.mp hk
  have htr : searchGo s.keys k s.keys.length 0 s.keys.length ≤ t.1 := by
    by_contra hlt
    push_neg at hlt
    have hx := r3 t.1 hlt
    rw [getD_of_lt _ _ t.isLt] at hx
    simp only [Fin.eta, ht] at hx
    exact lt_irrefl _ hx
  have hrlen : searchGo s.keys k s.keys.length 0 s.keys.length < s.keys.length :=
    lt_of_le_of_lt htr t.isLt
  have h1 : k ≤ s.keys.getD (searchGo s.keys k s.keys.length 0 s.keys.length) [] :=
    r4 _ le_rfl hrlen
  have h2 : s.keys.getD (searchGo s.keys k s.keys.length 0 s.keys.length) [] ≤ k := by
    have hmono := sorted_getD_le hs htr t.isLt
    rwa [getD_of_lt _ _ t.isLt, Fin.eta, ht] at hmono
  have heq : s.keys.getD (searchGo s.keys k s.keys.length 0 s.keys.length) [] = k :=
    le_antisymm h2 h1
  refine ⟨searchGo s.keys k s.keys.length 0 s.keys.length, ?_, hrlen, heq, r3⟩
  unfold keyIndex searchStrs
  rw [if_pos ⟨hrlen, heq⟩]

/-! ## The store invariant (P1): sorted, duplicate-free, key set = map domain -/

/-- The store invariant: the key list is sorted and duplicate-free; every
listed key is bound in the map and every binding's key is listed. -/
def WF (s : Store) : Prop :=
  List.Sorted (· ≤ ·) s.keys ∧ s.keys.Nodup ∧
  (∀ k ∈ s.keys, (mapGet s.values k).isSome = true) ∧
  (∀ kv ∈ s.values, kv.1 ∈ s.keys)

instance (s : Store) : Decidable (WF s) := by
  unfold WF
  infer_instance

theorem WF_sorted_lt {s : Store} (h : WF s) : List.Sorted (· < ·) s.keys :=
  (h.1.and h.2.1).imp fun hab => lt_of_le_of_ne hab.1 hab.2

theorem sorted_getD_lt {l : List Str} (hs : List.Sorted (· < ·) l) {a b : Nat}
    (hab : a < b) (hb : b < l.length) : l.getD a [] < l.getD b [] := by
  rw [getD_of_lt l a (lt_trans hab hb), getD_of_lt l b hb]
  exact hs.rel_get_of_lt hab

theorem WF_storePut {s : Store} (h : WF s) (k : Str) (v : Value) : WF (storePut s k v) := by
  obtain ⟨hsort, hnd, hmem, hdom⟩ := h
  unfold storePut
  by_cases hk : (mapGet s.values k).isSome = true
  · rw [if_pos hk]
    refine ⟨hsort, hnd, ?_, ?_⟩
    · intro k' hk'
      by_cases he : k' = k
      · subst he; simp [mapGet_mapPut_self]
      · rw [mapGet_mapPut_ne _ _ _ _ he]; exact hmem k' hk'
    · intro kv hkv
      rcases List.mem_cons.mp hkv with rfl | hkv'
      · obtain ⟨v', hv'⟩ := mapGet_isSome_mem hk
        simpa using hdom (k, v') hv'
      · exact hdom _ (List.mem_filter.mp hkv').1
  · rw [if_neg hk]
    have hknotin : k ∉ s.keys := fun hc => hk (hmem k hc)
    have hperm : (List.insertionSort (· ≤ ·) (s.keys ++ [k])).Perm (s.keys ++ [k]) :=
      List.perm_insertionSort _ _
    refine ⟨List.sorted_insertionSort _ _, ?_, ?_, ?_⟩
    · rw [hperm.nodup_iff, List.nodup_append]
      exact ⟨hnd, List.nodup_singleton k, fun a ha hb => hknotin (List.mem_singleton.mp hb ▸ ha)⟩
    · intro k' hk'
      have hk'' : k' ∈ s.keys ++ [k] := hperm.mem_iff.mp hk'
      by_cases he : k' = k
      · subst he; simp [mapGet_mapPut_self]
      · rw [mapGet_mapPut_ne _ _ _ _ he]
        rcases List.mem_append.mp hk'' with h1 | h1
        · exact hmem k' h1
        · simp at h1; exact absurd h1 he
    · intro kv hkv
      rcases List.mem_cons.mp hkv with rfl | hkv'
      · exact hperm.mem_iff.mpr (List.mem_append.mpr (Or.inr (by simp)))
      · exact hperm.mem_iff.mpr
          (List.mem_append.mpr (Or.inl (hdom _ (List.mem_filter.mp hkv').1)))


theorem getD_eq_getElem_lt (l : List Str) (n : Nat) (h : n < l.length) :
    l.getD n [] = l[n] := by
  rw [getD_of_lt l n h, List.get_eq_getElem]

/-- A list decomposes around any valid index. -/
theorem store_decomp {l : List Str} {n : Nat} (hn : n < l.length) :
    l = l.take n ++ (l.getD n [] :: l.drop (n + 1)) := by
  rw [getD_eq_getElem_lt l n hn]
  conv_lhs => rw [← List.take_append_drop n l, List.drop_eq_getElem_cons hn]

theorem not_mem_take_drop {l : List Str} (hnd : l.Nodup) {n : Nat} (hn : n < l.length) :
    l.getD n [] ∉ l.take n ++ l.drop (n + 1) := by
  have h2 : (l.take n ++ (l.getD n [] :: l.drop (n + 1))).Nodup := by
    rw [← store_decomp hn]; exact hnd
  intro hmem
  rcases List.mem_append.mp hmem with h1 | h1
  · exact (List.nodup_append.mp h2).2.2 h1 (List.mem_cons_self _ _)
  · exact (List.nodup_cons.mp (List.nodup_append.mp h2).2.1).1 h1

theorem mem_take_drop_of_ne {l : List Str} {n : Nat} (hn : n < l.length) {k : Str}
    (hk : k ∈ l) (hne : k ≠ l.getD n []) : k ∈ l.take n ++ l.drop (n + 1) := by
  rw [store_decomp hn] at hk
  rcases List.mem_append.mp hk with h1 | h1
  · exact List.mem_append.mpr (Or.inl h1)
  · rcases List.mem_cons.mp h1 with h2 | h2
    · exact absurd h2 hne
    · exact List.mem_append.mpr (Or.inr h2)

theorem WF_storeRemove {s : Store} (h : WF s) (k : Str) : WF (storeRemove s k).1 := by
  obtain ⟨hsort, hnd, hmem, hdom⟩ := h
  rcases keyIndex_cases s k with hki | ⟨n, hki, hlen, hget⟩
  · simp [storeRemove, hki]
    exact ⟨hsort, hnd, hmem, hdom⟩
  · have hne : keyIndex s k ≠ -1 := by rw [hki]; omega
    have htn : (keyIndex s k).toNat = n := by rw [hki]; simp
    simp only [storeRemove, if_neg hne, htn]
    have hsub : (s.keys.take n ++ s.keys.drop (n + 1)).Sublist s.keys := by
      conv_rhs => rw [← List.take_append_drop n s.keys]
      refine List.Sublist.append_left ?_ _
      rw [(by omega : n + 1 = n + 1), ← List.drop_drop 1 n]
      exact List.drop_sublist 1 _
    have hknotin : k ∉ s.keys.take n ++ s.keys.drop (n + 1) := by
      rw [← hget]; exact not_mem_take_drop hnd hlen
    refine ⟨hsort.sublist hsub, hnd.sublist hsub, ?_, ?_⟩
    · intro k' hk'
      have hk'ne : ¬ k' = k := fun hc => hknotin (hc ▸ hk')
      rw [mapGet_mapDelete, if_neg hk'ne]
      exact hmem k' (hsub.subset hk')
    · intro kv hkv
      have hkv1 : kv ∈ s.values := (List.mem_filter.mp hkv).1
      have hkvne : kv.1 ≠ k := by
        have := (List.mem_filter.mp hkv).2
        simpa using this
      exact mem_take_drop_of_ne hlen (hdom _ hkv1) (fun hc => hkvne (hc.trans hget))

/-! ## C3: all `put`/`remove` sequences preserve the invariant -/

/-- One store-level operation (`store.put` or `store.remove`). -/
inductive StoreOp where
  | putOp (k : Str) (v : Value)
  | removeOp (k : Str)
deriving DecidableEq

/-- Apply one store operation. -/
def applyStoreOp (s : Store) : StoreOp → Store
  | .putOp k v => storePut s k v
  | .removeOp k => (storeRemove s k).1

/-- Run a sequence of store operations from the empty store. -/
def runStoreOps (ops : List StoreOp) : Store := ops.foldl applyStoreOp emptyStore

theorem WF_emptyStore : WF emptyStore := by decide

theorem WF_applyStoreOp {s : Store} (h : WF s) (op : StoreOp) : WF (applyStoreOp s op) := by
  cases op with
  | putOp k v => exact WF_storePut h k v
  | removeOp k => exact WF_storeRemove h k

theorem WF_foldl {s : Store} (h : WF s) :
    ∀ ops : List StoreOp, WF (ops.foldl applyStoreOp s) := by
  intro ops
  induction ops generalizing s with
  | nil => exact h
  | cons op ops ih => exact ih (WF_applyStoreOp h op)

/-! ## C1: characterization of `store.removeAll` -/

theorem mem_getD {x : Str} : ∀ {l : List Str}, x ∈ l → ∃ m, m < l.length ∧ l.getD m [] = x := by
  intro l
  induction l with
  | nil => intro h; exact absurd h (List.not_mem_nil x)
  | cons a l ih =>
    intro h
    rcases List.mem_cons.mp h with rfl | h'
    · exact ⟨0, by simp, by simp⟩
    · obtain ⟨m, hm, hx⟩ := ih h'
      exact ⟨m + 1, by simp; omega, by simpa using hx⟩

theorem mem_take_getD {x : Str} : ∀ {l : List Str} {n : Nat}, x ∈ l.take n →
    ∃ m, m < n ∧ m < l.length ∧ l.getD m [] = x := by
  intro l
  induction l with
  | nil => intro n h; simp at h
  | cons a l ih =>
    intro n h
    cases n with
    | zero => simp at h
    | succ n =>
      rw [List.take_succ_cons] at h
      rcases List.mem_cons.mp h with rfl | h'
      · exact ⟨0, by omega, by simp, by simp⟩
      · obtain ⟨m, hm1, hm2, hx⟩ := ih h'
        exact ⟨m + 1, by omega, by simp; omega, by simpa using hx⟩

theorem mem_drop_getD {x : Str} : ∀ {l : List Str} {n : Nat}, x ∈ l.drop n →
    ∃ m, n ≤ m ∧ m < l.length ∧ l.getD m [] = x := by
  intro l
  induction l with
  | nil => intro n h; simp at h
  | cons a l ih =>
    intro n h
    cases n with
    | zero =>
      obtain ⟨m, hm, hx⟩ := mem_getD (show x ∈ a :: l by simpa using h)
      exact ⟨m, by omega, hm, hx⟩
    | succ n =>
      rw [List.drop_succ_cons] at h
      obtain ⟨m, hm1, hm2, hx⟩ := ih h
      exact ⟨m + 1, by omega, by simp; omega, by simpa using hx⟩

theorem storeRemoveAll_absent {s : Store} {p : Str} (h : p ∉ s.keys) :
    storeRemoveAll s p = s := by
  simp [storeRemoveAll, keyIndex_not_mem h]


theorem dropWhile_head_false {f : Str → Bool} :
    ∀ {l : List Str} {r : Str} {rs : List Str}, l.dropWhile f = r :: rs → f r = false := by
  intro l
  induction l with
  | nil => intro r rs h; simp [List.dropWhile] at h
  | cons a l ih =>
    intro r rs h
    rw [List.dropWhile_cons] at h
    by_cases ha : f a = true
    · rw [if_pos ha] at h; exact ih h
    · rw [if_neg ha] at h
      injection h with h1 h2
      subst h1
      simp only [Bool.not_eq_true] at ha
      exact ha

theorem storeRemoveAll_present {s : Store} {p : Str} (hWF : WF s) (hp : p ∈ s.keys) :
    (storeRemoveAll s p).keys = s.keys.filter (fun x => !(p.isPrefixOf x)) ∧
    ∀ k, storeGet (storeRemoveAll s p) k =
      if p.isPrefixOf k then none else storeGet s k := by
  obtain ⟨hsort, hnd, hmem, hdom⟩ := hWF
  obtain ⟨n, hki, hlen, hget, hmin⟩ := keyIndex_mem hsort hp
  have hne : ¬ keyIndex s p = -1 := by rw [hki]; omega
  have htn : (keyIndex s p).toNat = n := by rw [hki]; simp
  have hsplit : s.keys.drop n =
      (s.keys.drop n).takeWhile (fun k => p.isPrefixOf k) ++
      (s.keys.drop n).dropWhile (fun k => p.isPrefixOf k) :=
    (List.takeWhile_append_dropWhile _ _).symm
  have hdropn : s.keys.drop n = p :: s.keys.drop (n + 1) := by
    rw [List.drop_eq_getElem_cons hlen, ← getD_eq_getElem_lt _ _ hlen, hget]
  have hsorted_dropn : List.Sorted (· ≤ ·) (s.keys.drop n) :=
    hsort.sublist (List.drop_sublist n s.keys)
  have hple : ∀ y ∈ s.keys.drop n, p ≤ y := by
    intro y hy
    rw [hdropn] at hy hsorted_dropn
    rcases List.mem_cons.mp hy with rfl | hy'
    · exact le_rfl
    · exact List.rel_of_sorted_cons hsorted_dropn y hy'
  have htake : ∀ x ∈ s.keys.take n, ¬ p.isPrefixOf x = true := by
    intro x hx hpre
    obtain ⟨m, hmn, hml, hmx⟩ := mem_take_getD hx
    have hlt : x < p := hmx ▸ hmin m hmn
    exact absurd (pfx_le (List.isPrefixOf_iff_prefix.mp hpre)) (not_le_of_lt hlt)
  have hrun : ∀ x ∈ (s.keys.drop n).takeWhile (fun k => p.isPrefixOf k),
      p.isPrefixOf x = true := fun x hx => List.mem_takeWhile_imp hx
  have hrest : ∀ x ∈ (s.keys.drop n).dropWhile (fun k => p.isPrefixOf k),
      ¬ p.isPrefixOf x = true := by
    intro x hx hpre
    rcases hr : (s.keys.drop n).dropWhile (fun k => p.isPrefixOf k) with _ | ⟨r, rs⟩
    · rw [hr] at hx; exact absurd hx (List.not_mem_nil x)
    · have hrfalse : p.isPrefixOf r = false := dropWhile_head_false hr
      rw [hr] at hx
      have hrmem : r ∈ s.keys.drop n := by
        rw [hsplit, hr]
        exact List.mem_append.mpr (Or.inr (List.mem_cons_self _ _))
      rcases List.mem_cons.mp hx with rfl | hx'
      · rw [hpre] at hrfalse; exact absurd hrfalse (by simp)
      · have hsorted_rest : List.Sorted (· ≤ ·) (r :: rs) := by
          have hsub : (r :: rs).Sublist (s.keys.drop n) := by
            rw [hsplit, hr]
            exact List.sublist_append_right _ _
          exact hsorted_dropn.sublist hsub
        have hrx : r ≤ x := List.rel_of_sorted_cons hsorted_rest x hx'
        have hpr : p ≤ r := hple r hrmem
        have hpfx_r : p <+: r :=
          pfx_interval (List.prefix_refl p) (List.isPrefixOf_iff_prefix.mp hpre) hpr hrx
        rw [List.isPrefixOf_iff_prefix.mpr hpfx_r] at hrfalse
        exact absurd hrfalse (by simp)
  set run := (s.keys.drop n).takeWhile (fun k => p.isPrefixOf k) with hrun_def
  set rest := (s.keys.drop n).dropWhile (fun k => p.isPrefixOf k) with hrest_def
  have hkeys : (storeRemoveAll s p).keys = s.keys.take n ++ rest := by
    unfold storeRemoveAll
    rw [if_neg hne, htn, ← hrun_def]
    rw [← List.drop_drop]
    conv_lhs => rw [hsplit]
    rw [List.drop_left]
  have hfilter : s.keys.filter (fun x => !(p.isPrefixOf x)) = s.keys.take n ++ rest := by
    conv_lhs => rw [← List.take_append_drop n s.keys, List.filter_append]
    congr 1
    · exact List.filter_eq_self.mpr (fun a ha => by
        simp only [Bool.not_eq_true']
        exact Bool.eq_false_iff.mpr (htake a ha))
    · conv_lhs => rw [hsplit]
      rw [List.filter_append]
      have h1 : run.filter (fun x => !(p.isPrefixOf x)) = [] :=
        List.filter_eq_nil_iff.mpr (fun a ha => by simp [hrun a ha])
      have h2 : rest.filter (fun x => !(p.isPrefixOf x)) = rest :=
        List.filter_eq_self.mpr (fun a ha => by
          simp only [Bool.not_eq_true']
          exact Bool.eq_false_iff.mpr (hrest a ha))
      rw [h1, h2, List.nil_append]
  refine ⟨hkeys.trans hfilter.symm, ?_⟩
  intro k
  have hval : (storeRemoveAll s p).values =
      run.foldl (fun m k => mapDelete m k) s.values := by
    unfold storeRemoveAll
    rw [if_neg hne, htn, ← hrun_def]
  rw [storeGet, storeGet, hval, mapGet_foldl_mapDelete]
  by_cases hpk : p.isPrefixOf k = true
  · rw [if_pos hpk]
    by_cases hkrun : k ∈ run
    · rw [if_pos hkrun]
    · rw [if_neg hkrun]
      rcases ho : mapGet s.values k with _ | v
      · rfl
      · exfalso
        have hkmem : k ∈ s.keys := hdom _ (mapGet_eq_some_mem ho)
        rw [← List.take_append_drop n s.keys] at hkmem
        rcases List.mem_append.mp hkmem with htk | hdk
        · exact htake k htk hpk
        · rw [hsplit] at hdk
          rcases List.mem_append.mp hdk with h1 | h1
          · exact hkrun h1
          · exact hrest k h1 hpk
  · rw [if_neg hpk]
    have hkrun : k ∉ run := fun hc => hpk (hrun k hc)
    rw [if_neg hkrun]

/-- String literal helper for concrete test inputs. -/
def str (s : String) : Str := s.data

/-- C1 (amended). `store.removeAll(p)` with `p` present removes the entry
at `p` and exactly those entries whose key has `p` itself as a literal
string prefix (this includes every key with prefix `p + "/"`, but also
sibling keys that merely extend `p` textually); with `p` absent it removes
nothing. Keys characterization and per-key map characterization, on a
well-formed store. -/
theorem c1_removeAll_characterization (s : Store) (p k : Str) (hWF : WF s) :
    (p ∈ s.keys →
      (storeRemoveAll s p).keys = s.keys.filter (fun x => !(p.isPrefixOf x)) ∧
      storeGet (storeRemoveAll s p) k =
        if p.isPrefixOf k then none else storeGet s k) ∧
    (p ∉ s.keys → storeRemoveAll s p = s) := by
  constructor
  · intro hp
    obtain ⟨h1, h2⟩ := storeRemoveAll_present hWF hp
    exact ⟨h1, h2 k⟩
  · intro hp
    exact storeRemoveAll_absent hp

/-- A store holding the sibling keys `/a` and `/ab`, built by `put`. -/
def c1Store : Store :=
  storePut (storePut emptyStore (str "/a") ⟨str "/a", [1], 420, 0, false⟩)
    (str "/ab") ⟨str "/ab", [2], 420, 0, false⟩

/-- C1 counterexample: the claim says `removeAll("/a")` removes (besides
`/a` itself) exactly the keys with literal prefix `"/a/"`; but the code
also removes the sibling `/ab`, whose key does not start with `"/a/"`. -/
theorem c1_counterexample :
    str "/ab" ∈ c1Store.keys ∧
    ((str "/a" ++ str "/").isPrefixOf (str "/ab")) = false ∧
    str "/ab" ∉ (storeRemoveAll c1Store (str "/a")).keys := by
  decide

theorem c1_witness :
    WF c1Store ∧ str "/a" ∈ c1Store.keys ∧
    ((storeRemoveAll c1Store (str "/a")).keys =
      c1Store.keys.filter (fun x => !((str "/a").isPrefixOf x)) ∧
     storeGet (storeRemoveAll c1Store (str "/a")) (str "/ab") =
      if (str "/a").isPrefixOf (str "/ab") then none
      else storeGet c1Store (str "/ab")) :=
  ⟨by decide, by decide,
   (c1_removeAll_characterization c1Store (str "/a") (str "/ab") (by decide)).1 (by decide)⟩

/-- C3. Every interleaving of `store.put` and `store.remove` starting from
the empty store keeps the key list sorted and duplicate-free, with the key
list and the map domain coinciding, after every operation (every prefix of
an operation sequence is itself an operation sequence). -/
theorem c3_sorted_invariant : ∀ ops : List StoreOp, WF (runStoreOps ops) :=
  fun ops => WF_foldl WF_emptyStore ops

theorem c3_witness :
    WF (runStoreOps
      [.putOp (str "/b") ⟨str "/b", [], 420, 0, false⟩,
       .putOp (str "/a") ⟨str "/a", [], 420, 0, false⟩,
       .removeOp (str "/b")]) :=
  c3_sorted_invariant _

/-- C10. `RemoveFile` on a valid path whose key is absent from the store
returns success (`nil`) and leaves the store untouched, while the
underlying `store.remove` reports the absence by returning `nil`
(modelled `none`). -/
theorem c10_removeFile_absent (fdir : Str) (s : Store) (name : Str)
    (hv : validPath name = true) (habs : memKey fdir name ∉ s.keys) :
    removeFileFS fdir s name = (s, none) ∧
    storeRemove s (memKey fdir name) = (s, none) := by
  have hki := keyIndex_not_mem habs
  have h2 : storeRemove s (memKey fdir name) = (s, none) := by
    unfold storeRemove
    rw [if_pos hki]
  refine ⟨?_, h2⟩
  unfold removeFileFS
  rw [if_neg (not_not_intro hv), h2]

theorem c10_witness :
    removeFileFS rootStr emptyStore (str "x") = (emptyStore, none) ∧
    storeRemove emptyStore (memKey rootStr (str "x")) = (emptyStore, none) :=
  c10_removeFile_absent rootStr emptyStore (str "x") (by decide) (by decide)

/-! ## C2: WriteFile / ReadFile round trip -/

theorem storeGet_put_self (s : Store) (k : Str) (v : Value) :
    storeGet (storePut s k v) k = some v := by
  unfold storePut storeGet
  split <;> simp [mapGet_mapPut_self]

theorem storeGet_put_ne (s : Store) (k : Str) (v : Value) {k' : Str} (h : k' ≠ k) :
    storeGet (storePut s k v) k' = storeGet s k' := by
  unfold storePut storeGet
  split <;> simp [mapGet_mapPut_ne _ _ _ _ h]

theorem memOpen_some {fdir : Str} {s : Store} {name : Str} {v : Value}
    (hv : validPath name = true) (hg : storeGet s (memKey fdir name) = some v) :
    memOpen fdir s name = .ok v := by
  unfold memOpen
  rw [if_neg (not_not_intro hv), hg]

theorem readFileFS_of_get {fdir : Str} {s : Store} {name : Str} {v : Value}
    (hv : validPath name = true) (hg : storeGet s (memKey fdir name) = some v)
    (hd : v.isDir = false) : readFileFS fdir s name = .ok v.data := by
  unfold readFileFS
  rw [memOpen_some hv hg]
  simp [hd]

theorem createFS_ok {fdir : Str} {s : Store} {name : Str} {mode : Nat} {s₁ : Store}
    {v : Value} (h : createFS fdir s name mode = (s₁, .ok v)) :
    validPath name = true ∧ storeGet s₁ (memKey fdir name) = some v ∧ v.isDir = false := by
  unfold createFS at h
  split at h
  · exact Except.noConfusion (congrArg Prod.snd h)
  next hv =>
    have hv' : validPath name = true := by
      by_contra hc
      exact hv (fun hcc => hc hcc)
    split at h
    · exact Except.noConfusion (congrArg Prod.snd h)
    next s₂ heq =>
      split at h
      next hg =>
        injection h with h1 h2
        injection h2 with h2
        subst h1
        subst h2
        exact ⟨hv', storeGet_put_self _ _ _, rfl⟩
      next w hg =>
        split at h
        · exact Except.noConfusion (congrArg Prod.snd h)
        next hd =>
          injection h with h1 h2
          injection h2 with h2
          subst h1
          subst h2
          exact ⟨hv', hg, by simpa using hd⟩

theorem writeFileFS_ok {fdir : Str} {s : Store} {name : Str} {B : List Nat} {mode : Nat}
    {s' : Store} {n : Nat} (h : writeFileFS fdir s name B mode = (s', .ok n)) :
    n = B.length ∧ validPath name = true ∧
    ∃ v, storeGet s' (memKey fdir name) = some v ∧ v.data = B ∧ v.isDir = false := by
  unfold writeFileFS at h
  split at h
  · exact Except.noConfusion (congrArg Prod.snd h)
  next s₁ v heq =>
    injection h with h1 h2
    injection h2 with h2
    obtain ⟨hv, hget, hdir⟩ := createFS_ok heq
    subst h1
    subst h2
    refine ⟨rfl, hv, { v with data := B }, ?_, rfl, hdir⟩
    show mapGet (mapPut s₁.values (memKey fdir name) { v with data := B })
      (memKey fdir name) = _
    rw [mapGet_mapPut_self]

/-- C2. Whenever `WriteFile(p, B, m)` succeeds it reports `len(B)` bytes
written, and a subsequent `ReadFile(p)` on the resulting store returns
exactly `B` — in particular an empty `B` reads back as an empty sequence
(success, not `NotExist`). -/
theorem c2_write_read (fdir : Str) (s : Store) (name : Str) (B : List Nat) (m : Nat)
    (s' : Store) (n : Nat) (h : writeFileFS fdir s name B m = (s', .ok n)) :
    n = B.length ∧ readFileFS fdir s' name = .ok B := by
  obtain ⟨hn, hv, v, hg, hdata, hdir⟩ := writeFileFS_ok h
  refine ⟨hn, ?_⟩
  rw [readFileFS_of_get hv hg hdir, hdata]

/-- The store produced by writing an empty file to a fresh filesystem. -/
def c2S : Store := (writeFileFS rootStr emptyStore (str "f.txt") [] 420).1

theorem c2_witness :
    writeFileFS rootStr emptyStore (str "f.txt") [] 420 = (c2S, .ok 0) ∧
    readFileFS rootStr c2S (str "f.txt") = .ok [] :=
  ⟨by decide,
   (c2_write_read rootStr emptyStore (str "f.txt") [] 420 c2S 0 (by decide)).2⟩

/-! ## C4: conflict detection in `create` and `mkdirAll` -/

theorem mkdirAllGo_err {fdir d : Str} {mode : Nat} :
    ∀ {steps : List (Str × Str)} {s s₁ : Store} {e : PathError},
      mkdirAllGo fdir d mode steps s = (s₁, some e) → e = ⟨"MkdirAll", d, .invalid⟩ := by
  intro steps
  induction steps with
  | nil =>
    intro s s₁ e h
    simp [mkdirAllGo] at h
  | cons st rest ih =>
    intro s s₁ e h
    obtain ⟨joined, k⟩ := st
    simp only [mkdirAllGo] at h
    split at h
    next v hg =>
      split at h
      · exact ih h
      · injection h with h1 h2
        injection h2 with h2
        exact h2.symm
    next hg => exact ih h

theorem mkdirAllFS_err {fdir : Str} {s : Store} {d : Str} {mode : Nat} {s₁ : Store}
    {e : PathError} (h : mkdirAllFS fdir s d mode = (s₁, some e)) :
    e = ⟨"MkdirAll", d, .invalid⟩ := by
  unfold mkdirAllFS at h
  split at h
  · injection h with h1 h2
    injection h2 with h2
    exact h2.symm
  · exact mkdirAllGo_err h

theorem mkdirAllGo_preserve {fdir d : Str} {mode : Nat} {k0 : Str} {v0 : Value} :
    ∀ {steps : List (Str × Str)} {s s₁ : Store} {r : Option PathError},
      storeGet s k0 = some v0 → mkdirAllGo fdir d mode steps s = (s₁, r) →
      storeGet s₁ k0 = some v0 := by
  intro steps
  induction steps with
  | nil =>
    intro s s₁ r h0 h
    injection h with h1 h2
    subst h1
    exact h0
  | cons st rest ih =>
    intro s s₁ r h0 h
    obtain ⟨joined, k⟩ := st
    simp only [mkdirAllGo] at h
    split at h
    next v hg =>
      split at h
      · exact ih h0 h
      · injection h with h1 h2
        subst h1
        exact h0
    next hg =>
      have hne : k0 ≠ memKey fdir joined := by
        intro hc
        rw [hc] at h0
        rw [h0] at hg
        exact Option.noConfusion hg
      exact ih (by rw [storeGet_put_ne _ _ _ hne]; exact h0) h

theorem mkdirAllFS_preserve {fdir : Str} {s : Store} {d : Str} {mode : Nat} {s₁ : Store}
    {r : Option PathError} {k0 : Str} {v0 : Value} (h0 : storeGet s k0 = some v0)
    (h : mkdirAllFS fdir s d mode = (s₁, r)) : storeGet s₁ k0 = some v0 := by
  unfold mkdirAllFS at h
  split at h
  · injection h with h1 h2
    subst h1
    exact h0
  · exact mkdirAllGo_preserve h0 h

theorem mkdirAllGo_file_err {fdir d : Str} {mode : Nat} {v : Value} (hv : v.isDir = false) :
    ∀ {steps : List (Str × Str)} {s : Store},
      (∃ st ∈ steps, storeGet s (memKey fdir st.1) = some v) →
      ∃ s₁, mkdirAllGo fdir d mode steps s = (s₁, some ⟨"MkdirAll", d, .invalid⟩) := by
  intro steps
  induction steps with
  | nil =>
    intro s hex
    obtain ⟨st, hst, _⟩ := hex
    exact absurd hst (List.not_mem_nil st)
  | cons st0 rest ih =>
    intro s hex
    obtain ⟨joined, k⟩ := st0
    rcases hg : storeGet s (memKey fdir joined) with _ | w
    · obtain ⟨st, hst, hstget⟩ := hex
      have hstrest : st ∈ rest := by
        rcases List.mem_cons.mp hst with rfl | h1
        · exact Option.noConfusion (hg.symm.trans hstget)
        · exact h1
      have hne : memKey fdir st.1 ≠ memKey fdir joined := by
        intro hc
        rw [hc, hg] at hstget
        exact Option.noConfusion hstget
      obtain ⟨s₁, hrec⟩ := ih (show ∃ st ∈ rest,
          storeGet (storePut s (memKey fdir joined)
            { name := if k = [] then ['.'] else k, data := [],
              mode := Nat.lor mode modeDir, modTime := 0, isDir := true })
            (memKey fdir st.1) = some v from
        ⟨st, hstrest, by rw [storeGet_put_ne _ _ _ hne]; exact hstget⟩)
      refine ⟨s₁, ?_⟩
      simp only [mkdirAllGo, hg]
      exact hrec
    · by_cases hdw : w.isDir = true
      · obtain ⟨st, hst, hstget⟩ := hex
        have hstrest : st ∈ rest := by
          rcases List.mem_cons.mp hst with rfl | h1
          · exfalso
            rw [hg] at hstget
            injection hstget with hwv
            rw [← hwv] at hv
            rw [hdw] at hv
            exact Bool.noConfusion hv
          · exact h1
        obtain ⟨s₁, hrec⟩ := ih ⟨st, hstrest, hstget⟩
        refine ⟨s₁, ?_⟩
        simp only [mkdirAllGo, hg, if_pos hdw]
        exact hrec
      · refine ⟨s, ?_⟩
        simp only [mkdirAllGo, hg, if_neg hdw]

/-- C4 (amended). Creating a file at a valid path whose entry is an existing
directory fails with an invalid-argument error, and `mkdirAll` on a valid
path one of whose walked prefixes holds an existing non-directory entry
fails with `ErrInvalid`; the store, however, is not always left unchanged
(missing ancestor directories examined before the conflict are created as a
side effect — see the counterexample). -/
theorem c4_conflict_errors (fdir name d : Str) (s : Store) (m : Nat) (v : Value) :
    (validPath name = true → storeGet s (memKey fdir name) = some v → v.isDir = true →
      ∃ e, (createFS fdir s name m).2 = .error e ∧ e.err = .invalid) ∧
    (validPath d = true → v.isDir = false →
      (∃ st ∈ mkdirSteps (splitSlash (memKey fdir d)),
        storeGet s (memKey fdir st.1) = some v) →
      (mkdirAllFS fdir s d m).2 = some ⟨"MkdirAll", d, .invalid⟩) := by
  constructor
  · intro hv hg hd
    unfold createFS
    rw [if_neg (not_not_intro hv)]
    rcases hmk : mkdirAllFS fdir s (dirPath name) m with ⟨s₂, me⟩
    cases me with
    | some e =>
      refine ⟨e, by simp, ?_⟩
      rw [mkdirAllFS_err hmk]
    | none =>
      have hg2 : storeGet s₂ (memKey fdir name) = some v := mkdirAllFS_preserve hg hmk
      refine ⟨⟨"Create", name, .invalid⟩, ?_, rfl⟩
      simp only [hg2, hd, if_pos]
  · intro hvd hvf hex
    unfold mkdirAllFS
    rw [if_neg (not_not_intro hvd)]
    obtain ⟨s₁, h⟩ := mkdirAllGo_file_err hvf hex
    rw [h]

/-- A reachable store where the directory `/a/b` exists but its parent
`/a` was removed with `RemoveFile`. -/
def c4S : Store :=
  (removeFileFS rootStr (mkdirAllFS rootStr emptyStore (str "a/b") 493).1 (str "a")).1

/-- C4 counterexample: `create` at the existing directory `a/b` fails with
`ErrInvalid` as claimed, but the store is NOT left unchanged — the
preliminary `mkdirAll` of the parent re-creates the missing `/a` entry
before the conflict is detected. -/
theorem c4_counterexample :
    (createFS rootStr c4S (str "a/b") 493).2 = .error ⟨"Create", str "a/b", .invalid⟩ ∧
    (createFS rootStr c4S (str "a/b") 493).1 ≠ c4S := by
  decide

/-- A store holding the directory `/d`. -/
def c4dirS : Store := (mkdirAllFS rootStr emptyStore (str "d") 420).1

/-- A store holding the file `/f`. -/
def c4fileS : Store := (writeFileFS rootStr emptyStore (str "f") [1] 420).1

theorem c4_witness :
    (∃ e, (createFS rootStr c4dirS (str "d") 420).2 = .error e ∧ e.err = .invalid) ∧
    (mkdirAllFS rootStr c4fileS (str "f/x") 420).2 =
      some ⟨"MkdirAll", str "f/x", .invalid⟩ :=
  ⟨(c4_conflict_errors rootStr (str "d") (str "f/x") c4dirS 420
      ⟨str "d", [], Nat.lor 420 modeDir, 0, true⟩).1 (by decide) (by decide) (by decide),
   (c4_conflict_errors rootStr (str "d") (str "f/x") c4fileS 420
      ⟨str "/f", [1], 420, 0, false⟩).2 (by decide) (by decide) (by decide)⟩

/-! ## Path algebra: `splitSlash`, `joinSlash`, `clean` on valid paths -/

theorem splitSlash_ne_nil : ∀ s : Str, splitSlash s ≠ [] := by
  intro s
  induction s with
  | nil => simp [splitSlash]
  | cons c rest ih =>
    simp only [splitSlash]
    split
    · simp
    · rcases h : splitSlash rest with _ | ⟨a, l⟩
      · exact absurd h ih
      · simp

theorem joinSlash_splitSlash : ∀ s : Str, joinSlash (splitSlash s) = s := by
  intro s
  induction s with
  | nil => rfl
  | cons c rest ih =>
    by_cases hc : c = '/'
    · subst hc
      simp only [splitSlash, if_pos rfl]
      rcases h : splitSlash rest with _ | ⟨a, l⟩
      · exact absurd h (splitSlash_ne_nil rest)
      · rw [h] at ih
        show joinSlash ([] :: a :: l) = '/' :: rest
        rw [joinSlash]
        simp [ih]
    · simp only [splitSlash, if_neg hc]
      rcases h : splitSlash rest with _ | ⟨a, l⟩
      · exact absurd h (splitSlash_ne_nil rest)
      · rw [h] at ih
        cases l with
        | nil =>
          simp only [joinSlash] at ih ⊢
          simp [ih]
        | cons b l' =>
          simp only [joinSlash] at ih ⊢
          simp [ih]

theorem splitSlash_append : ∀ (a b : Str),
    splitSlash (a ++ '/' :: b) = splitSlash a ++ splitSlash b := by
  intro a b
  induction a with
  | nil => simp [splitSlash]
  | cons c a ih =>
    by_cases hc : c = '/'
    · subst hc
      simp [splitSlash, ih]
    · simp only [List.cons_append, splitSlash, if_neg hc, List.append_eq]
      rw [ih]
      rcases h : splitSlash a with _ | ⟨x, xs⟩
      · exact absurd h (splitSlash_ne_nil a)
      · simp [h]

/-- The segments of a valid path: all nonempty and none equal to `.` or
`..`. -/
def validSegs (d : Str) : Prop :=
  ∀ e ∈ splitSlash d, e ≠ [] ∧ e ≠ ['.'] ∧ e ≠ ['.', '.']

instance (d : Str) : Decidable (validSegs d) := by
  unfold validSegs
  infer_instance

theorem validSegs_ne_nil {d : Str} (h : validSegs d) : d ≠ [] := by
  intro hd
  subst hd
  exact (h [] (by simp [splitSlash])).1 rfl

theorem validSegs_head_ne_slash {d : Str} (h : validSegs d) : d.head? ≠ some '/' := by
  intro hc
  cases d with
  | nil => simp at hc
  | cons c d' =>
    simp at hc
    subst hc
    exact (h [] (by simp [splitSlash])).1 rfl

theorem cleanLoop_nil_seg (rooted : Bool) (acc : List Str) (rest : List Str) :
    cleanLoop rooted acc ([] :: rest) = cleanLoop rooted acc rest := by
  simp [cleanLoop]

theorem cleanLoop_valid : ∀ {segs : List Str},
    (∀ e ∈ segs, e ≠ [] ∧ e ≠ ['.'] ∧ e ≠ ['.', '.']) →
    ∀ (rooted : Bool) (acc : List Str), cleanLoop rooted acc segs = acc.reverse ++ segs := by
  intro segs
  induction segs with
  | nil =>
    intro _ rooted acc
    simp [cleanLoop]
  | cons seg rest ih =>
    intro hval rooted acc
    obtain ⟨h1, h2, h3⟩ := hval seg (List.mem_cons_self _ _)
    simp only [cleanLoop]
    rw [if_neg (by simp [h1, h2]), if_neg h3,
      ih (fun e he => hval e (List.mem_cons_of_mem _ he)) rooted (seg :: acc)]
    simp

theorem clean_rel_id {d : Str} (h : validSegs d) : clean d = d := by
  have hne : d ≠ [] := validSegs_ne_nil h
  have hroot : (decide (d.head? = some '/')) = false := by
    simp only [decide_eq_false_iff_not]
    exact validSegs_head_ne_slash h
  have hl : cleanLoop false [] (splitSlash d) = splitSlash d := by
    rw [cleanLoop_valid h false []]
    simp
  simp only [clean]
  rw [if_neg hne, hroot]
  simp only [Bool.false_eq_true, if_false]
  rw [hl, if_neg (splitSlash_ne_nil d), joinSlash_splitSlash]

theorem clean_rooted_id {d : Str} (h : validSegs d) : clean ('/' :: d) = '/' :: d := by
  have h0 : splitSlash ('/' :: d) = [] :: splitSlash d := by simp [splitSlash]
  have hroot : (decide ((('/' :: d : Str)).head? = some '/')) = true := by simp
  have hl : cleanLoop true [] (splitSlash ('/' :: d)) = splitSlash d := by
    rw [h0, cleanLoop_nil_seg, cleanLoop_valid h true []]
    simp
  simp only [clean]
  rw [if_neg (by simp : ('/' :: d : Str) ≠ []), hroot]
  simp only [if_true]
  rw [hl, if_neg (splitSlash_ne_nil d), joinSlash_splitSlash]

theorem join2_root {d : Str} (h : validSegs d) : join2 rootStr d = '/' :: d := by
  unfold join2 rootStr
  rw [if_neg (by simp)]
  have h0 : (['/'] ++ '/' :: d : Str) = '/' :: '/' :: d := rfl
  rw [h0]
  have hsp : splitSlash ('/' :: '/' :: d) = [] :: [] :: splitSlash d := by
    simp [splitSlash]
  have hroot : (decide ((('/' :: '/' :: d : Str)).head? = some '/')) = true := by simp
  have hl : cleanLoop true [] (splitSlash ('/' :: '/' :: d)) = splitSlash d := by
    rw [hsp, cleanLoop_nil_seg, cleanLoop_nil_seg, cleanLoop_valid h true []]
    simp
  simp only [clean]
  rw [if_neg (by simp : ('/' :: '/' :: d : Str) ≠ []), hroot]
  simp only [if_true]
  rw [hl, if_neg (splitSlash_ne_nil d), joinSlash_splitSlash]

theorem memKey_root {d : Str} (h : validSegs d) : memKey rootStr d = '/' :: d := by
  unfold memKey
  rw [join2_root h, clean_rooted_id h]

theorem validSegs_append {D q : Str} (hD : validSegs D) (hq : validSegs q) :
    validSegs (D ++ '/' :: q) := by
  intro e he
  rw [splitSlash_append] at he
  rcases List.mem_append.mp he with h1 | h1
  · exact hD e h1
  · exact hq e h1

theorem memKey_sub {D q : Str} (hD : validSegs D) (hq : validSegs q) :
    memKey ('/' :: D) q = '/' :: (D ++ '/' :: q) := by
  unfold memKey join2
  rw [if_neg (by simp)]
  have h0 : (('/' :: D) ++ '/' :: q : Str) = '/' :: (D ++ '/' :: q) := rfl
  rw [h0, clean_rooted_id (validSegs_append hD hq), clean_rooted_id (validSegs_append hD hq)]

theorem validSegs_of_validPath {d : Str} (h : validPath d = true) (hd : d ≠ ['.']) :
    validSegs d := by
  unfold validPath at h
  simp only [Bool.or_eq_true, decide_eq_true_eq, List.all_eq_true, Bool.and_eq_true] at h
  rcases h with h | h
  · exact absurd h hd
  · intro e he
    obtain ⟨⟨h1, h2⟩, h3⟩ := h e he
    exact ⟨h1, h2, h3⟩

theorem validPath_of_validSegs {d : Str} (h : validSegs d) : validPath d = true := by
  unfold validPath
  simp only [Bool.or_eq_true, decide_eq_true_eq, List.all_eq_true, Bool.and_eq_true]
  right
  intro e he
  obtain ⟨h1, h2, h3⟩ := h e he
  exact ⟨⟨by simpa using h1, by simpa using h2⟩, by simpa using h3⟩

theorem lastStep_key_root (d : Str) (hv : validPath d = true) :
    memKey rootStr (goJoin (splitSlash (memKey rootStr d))) = memKey rootStr d := by
  by_cases hd : d = ['.']
  · subst hd; decide
  · have hsegs := validSegs_of_validPath hv hd
    rw [memKey_root hsegs]
    have h0 : splitSlash ('/' :: d) = [] :: splitSlash d := by simp [splitSlash]
    rw [h0]
    have hgj : goJoin ([] :: splitSlash d) = d := by
      rcases hsp : splitSlash d with _ | ⟨e, es⟩
      · exact absurd hsp (splitSlash_ne_nil d)
      · have he : e ≠ [] := (hsegs e (by rw [hsp]; exact List.mem_cons_self _ _)).1
        have hdw : (([] : Str) :: e :: es).dropWhile (fun e => decide (e = [])) = e :: es := by
          rw [List.dropWhile_cons, if_pos (by simp), List.dropWhile_cons,
            if_neg (by simp [he])]
        simp only [goJoin]
        rw [hdw]
        show clean (joinSlash (e :: es)) = d
        rw [← hsp, joinSlash_splitSlash]
        exact clean_rel_id hsegs
    rw [hgj]
    exact memKey_root hsegs

/-! ## C6: `MkdirAll` idempotence -/

theorem mkdirAllGo_WF {fdir d : Str} {mode : Nat} :
    ∀ {steps : List (Str × Str)} {s s₁ : Store} {r : Option PathError},
      WF s → mkdirAllGo fdir d mode steps s = (s₁, r) → WF s₁ := by
  intro steps
  induction steps with
  | nil =>
    intro s s₁ r h0 h
    injection h with h1 h2
    subst h1
    exact h0
  | cons st rest ih =>
    intro s s₁ r h0 h
    obtain ⟨joined, k⟩ := st
    simp only [mkdirAllGo] at h
    split at h
    next v hg =>
      split at h
      · exact ih h0 h
      · injection h with h1 h2
        subst h1
        exact h0
    next hg => exact ih (WF_storePut h0 _ _) h

theorem mkdirAllFS_WF {fdir : Str} {s : Store} {d : Str} {mode : Nat} {s₁ : Store}
    {r : Option PathError} (h0 : WF s) (h : mkdirAllFS fdir s d mode = (s₁, r)) : WF s₁ := by
  unfold mkdirAllFS at h
  split at h
  · injection h with h1 h2
    subst h1
    exact h0
  · exact mkdirAllGo_WF h0 h

theorem mkdirAllGo_ok_dirs {fdir d : Str} {mode : Nat} :
    ∀ {steps : List (Str × Str)} {s s₁ : Store},
      mkdirAllGo fdir d mode steps s = (s₁, none) →
      ∀ st ∈ steps, ∃ v, storeGet s₁ (memKey fdir st.1) = some v ∧ v.isDir = true := by
  intro steps
  induction steps with
  | nil =>
    intro s s₁ h st hst
    exact absurd hst (List.not_mem_nil st)
  | cons st0 rest ih =>
    intro s s₁ h st hst
    obtain ⟨joined, k⟩ := st0
    simp only [mkdirAllGo] at h
    split at h
    next v hg =>
      split at h
      next hd =>
        rcases List.mem_cons.mp hst with rfl | h1
        · exact ⟨v, mkdirAllGo_preserve hg h, hd⟩
        · exact ih h st h1
      · injection h with h1 h2
        exact Option.noConfusion h2
    next hg =>
      rcases List.mem_cons.mp hst with rfl | h1
      · exact ⟨_, mkdirAllGo_preserve (storeGet_put_self _ _ _) h, rfl⟩
      · exact ih h st h1

theorem mkdirAllGo_noop {fdir d : Str} {mode : Nat} :
    ∀ {steps : List (Str × Str)} {s : Store},
      (∀ st ∈ steps, ∃ v, storeGet s (memKey fdir st.1) = some v ∧ v.isDir = true) →
      mkdirAllGo fdir d mode steps s = (s, none) := by
  intro steps
  induction steps with
  | nil =>
    intro s _
    rfl
  | cons st0 rest ih =>
    intro s hall
    obtain ⟨joined, k⟩ := st0
    obtain ⟨v, hg, hd⟩ := hall (joined, k) (List.mem_cons_self _ _)
    simp only [mkdirAllGo, hg, if_pos hd]
    exact ih (fun st hst => hall st (List.mem_cons_of_mem _ hst))

/-- C6. On a well-formed store, a successful root-instance `MkdirAll(d, m)`
is idempotent: a second call succeeds and changes nothing; afterwards the
store is well-formed, holds exactly one key for `d`, and that key maps to a
directory entry. -/
theorem c6_mkdirAll_idempotent (s s₁ : Store) (d : Str) (m : Nat) (hWF : WF s)
    (hv : validPath d = true) (h1 : mkdirAllFS rootStr s d m = (s₁, none)) :
    mkdirAllFS rootStr s₁ d m = (s₁, none) ∧ WF s₁ ∧
    @List.count Str instBEqOfDecidableEq (memKey rootStr d) s₁.keys = 1 ∧
    ∃ v, storeGet s₁ (memKey rootStr d) = some v ∧ v.isDir = true := by
  have h1' : mkdirAllGo rootStr d m (mkdirSteps (splitSlash (memKey rootStr d))) s =
      (s₁, none) := by
    unfold mkdirAllFS at h1
    rw [if_neg (not_not_intro hv)] at h1
    exact h1
  have hdirs := mkdirAllGo_ok_dirs h1'
  have hWF1 : WF s₁ := mkdirAllGo_WF hWF h1'
  have hsecond : mkdirAllFS rootStr s₁ d m = (s₁, none) := by
    unfold mkdirAllFS
    rw [if_neg (not_not_intro hv)]
    exact mkdirAllGo_noop hdirs
  have hlenpos : 0 < (splitSlash (memKey rootStr d)).length :=
    List.length_pos.mpr (splitSlash_ne_nil _)
  have hmemstep : (goJoin ((splitSlash (memKey rootStr d)).take
        ((splitSlash (memKey rootStr d)).length - 1 + 1)),
      (splitSlash (memKey rootStr d)).getD ((splitSlash (memKey rootStr d)).length - 1) []) ∈
      mkdirSteps (splitSlash (memKey rootStr d)) := by
    unfold mkdirSteps
    exact List.mem_map.mpr
      ⟨(splitSlash (memKey rootStr d)).length - 1, List.mem_range.mpr (by omega), rfl⟩
  obtain ⟨v, hgv, hdv⟩ := hdirs _ hmemstep
  have htake : (splitSlash (memKey rootStr d)).length - 1 + 1 =
      (splitSlash (memKey rootStr d)).length := by omega
  rw [htake, List.take_length] at hgv
  rw [lastStep_key_root d hv] at hgv
  have hmemk : memKey rootStr d ∈ s₁.keys := by
    obtain ⟨w, hw⟩ := mapGet_isSome_mem (by
      show (mapGet s₁.values (memKey rootStr d)).isSome = true
      rw [show mapGet s₁.values (memKey rootStr d) = some v from hgv]
      rfl)
    exact hWF1.2.2.2 _ hw
  exact ⟨hsecond, hWF1, List.count_eq_one_of_mem hWF1.2.1 hmemk, v, hgv, hdv⟩

/-- The store after `MkdirAll("x/y", 448)` on a fresh filesystem. -/
def c6S : Store := (mkdirAllFS rootStr emptyStore (str "x/y") 448).1

theorem c6_witness :
    mkdirAllFS rootStr c6S (str "x/y") 448 = (c6S, none) ∧ WF c6S ∧
    @List.count Str instBEqOfDecidableEq (memKey rootStr (str "x/y")) c6S.keys = 1 ∧
    ∃ v, storeGet c6S (memKey rootStr (str "x/y")) = some v ∧ v.isDir = true :=
  c6_mkdirAll_idempotent emptyStore c6S (str "x/y") 448 (by decide) (by decide) (by decide)

/-! ## C5: sub-filesystem aliasing -/

theorem subFS_ok {fdir : Str} {s : Store} {d sub : Str}
    (h : subFS fdir s d = .ok sub) : sub = join2 fdir d := by
  unfold subFS at h
  split at h
  · exact Except.noConfusion h
  · split at h
    · exact Except.noConfusion h
    · split at h
      · exact Except.noConfusion h
      · injection h with h1
        exact h1.symm

/-- C5. When `Sub(dirname)` on the root instance succeeds and a
`WriteFile(q, B, m)` through the returned sub-view succeeds, reading
`dirname ++ "/" ++ q` through the parent instance returns exactly `B` —
both views address the same shared store, and `Sub` copies no data (it only
computes the joined key prefix). -/
theorem c5_sub_alias (s s' : Store) (dirname q sub : Str) (B : List Nat) (m n : Nat)
    (hd : validPath dirname = true) (hd' : dirname ≠ ['.'])
    (hq : validPath q = true) (hq' : q ≠ ['.'])
    (hsub : subFS rootStr s dirname = .ok sub)
    (hw : writeFileFS sub s q B m = (s', .ok n)) :
    readFileFS rootStr s' (dirname ++ '/' :: q) = .ok B ∧ n = B.length := by
  have hsegsD := validSegs_of_validPath hd hd'
  have hsegsq := validSegs_of_validPath hq hq'
  have hsubeq : sub = '/' :: dirname := by
    rw [subFS_ok hsub, join2_root hsegsD]
  subst hsubeq
  obtain ⟨hn, hvq, v, hg, hdata, hdir⟩ := writeFileFS_ok hw
  rw [memKey_sub hsegsD hsegsq] at hg
  have hvalid2 : validPath (dirname ++ '/' :: q) = true :=
    validPath_of_validSegs (validSegs_append hsegsD hsegsq)
  have hkey2 : memKey rootStr (dirname ++ '/' :: q) = '/' :: (dirname ++ '/' :: q) :=
    memKey_root (validSegs_append hsegsD hsegsq)
  refine ⟨?_, hn⟩
  rw [readFileFS_of_get hvalid2 (by rw [hkey2]; exact hg) hdir, hdata]

/-- A fresh filesystem holding the directory `/d`. -/
def c5S0 : Store := (mkdirAllFS rootStr emptyStore (str "d") 420).1

/-- The same store after writing `f` through the sub-view rooted at `/d`. -/
def c5S1 : Store := (writeFileFS (str "/d") c5S0 (str "f") [7] 420).1

theorem c5_witness :
    readFileFS rootStr c5S1 (str "d" ++ '/' :: str "f") = .ok [7] ∧ 1 = [7].length :=
  c5_sub_alias c5S0 c5S1 (str "d") (str "f") (str "/d") [7] 420 1
    (by decide) (by decide) (by decide) (by decide) (by decide) (by decide)

/-! ## C7: close-time flushing -/

/-- C7 (amended). A close performs a store flush (the `Bool` component)
exactly when the dirty flag `wrote` is set; a close with no prior write
mutates nothing (it only drops the cached directory entries); `Write` sets
the dirty flag; and close never clears it — the handle comes back
unchanged, so every further close on a written handle flushes again. -/
theorem c7_close_flush (f : MemFile) (s : Store) (p : List Nat) (f₁ : MemFile) (k : Nat) :
    ((MemFile.close f s).2.2.1 = f.wrote) ∧
    (f.wrote = false → MemFile.close f s = ({ f with dirEntries := [] }, s, false, none)) ∧
    (f.wrote = true → (MemFile.close f s).1 = f) ∧
    (MemFile.write f p = some (f₁, k) → f₁.wrote = true) := by
  refine ⟨?_, ?_, ?_, ?_⟩
  · unfold MemFile.close
    by_cases hw : f.wrote = true
    · rw [if_pos hw]
      split <;> simp [hw]
    · rw [if_neg hw]
      simp only [Bool.not_eq_true] at hw
      simp [hw]
  · intro hw
    unfold MemFile.close
    rw [if_neg (by simp [hw])]
  · intro hw
    unfold MemFile.close
    rw [if_pos hw]
    split <;> rfl
  · intro hwr
    unfold MemFile.write at hwr
    split at hwr
    · exact Option.noConfusion hwr
    · injection hwr with h1
      have h2 := congrArg Prod.fst h1
      simp only [Prod.fst] at h2
      rw [← h2]

/-- A fresh writable handle as returned by `CreateFile("a")`. -/
def c7F : MemFile :=
  { fdir := rootStr, name := str "a", buf := some ⟨[], 0⟩, mode := 420,
    dirRead := false, dirEntries := [], dirIndex := 0, wrote := false }

/-- The same handle after one `Write` of the byte `104`. -/
def c7F1 : MemFile := { c7F with buf := some ⟨[104], 0⟩, wrote := true }

/-- The store created alongside the `c7F` handle. -/
def c7CS : Store := (createFileFS rootStr emptyStore (str "a") 420).1

/-- C7 counterexample: a handle obtained from `CreateFile`, written once,
performs a store flush on its first close AND again on a second close (the
dirty flag is never cleared), contradicting the claim that the buffer is
flushed exactly once across every sequence of close calls. -/
theorem c7_counterexample :
    createFileFS rootStr emptyStore (str "a") 420 = (c7CS, .ok c7F) ∧
    MemFile.write c7F [104] = some (c7F1, 1) ∧
    (MemFile.close c7F1 c7CS).2.2.1 = true ∧
    (MemFile.close (MemFile.close c7F1 c7CS).1 (MemFile.close c7F1 c7CS).2.1).2.2.1 = true := by
  decide

theorem c7_witness :
    ((MemFile.close c7F1 emptyStore).2.2.1 = c7F1.wrote) ∧
    MemFile.close c7F emptyStore = ({ c7F with dirEntries := [] }, emptyStore, false, none) ∧
    (MemFile.close c7F1 emptyStore).1 = c7F1 ∧
    c7F1.wrote = true :=
  ⟨(c7_close_flush c7F1 emptyStore [104] c7F1 1).1,
   (c7_close_flush c7F emptyStore [104] c7F1 1).2.1 (by decide),
   (c7_close_flush c7F1 emptyStore [104] c7F1 1).2.2.1 (by decide),
   (c7_close_flush c7F emptyStore [104] c7F1 1).2.2.2 (by decide)⟩

/-! ## C9: the `isDir`-vs-mode-bit invariant -/

/-- One public `MemFS` operation, tagged with the instance root prefix it
runs under (parent or sub-view alike; any prefix is allowed, which covers
every reachable instance). Read-only operations do not mutate the store and
are omitted; a handle close flushes through `WriteFile`, which
`writeFileOp` covers. -/
inductive FSOp where
  | mkdirAllOp (fdir d : Str) (m : Nat)
  | writeFileOp (fdir name : Str) (data : List Nat) (m : Nat)
  | createFileOp (fdir name : Str) (m : Nat)
  | removeFileOp (fdir name : Str)
  | removeAllOp (fdir p : Str)
deriving DecidableEq

/-- Apply one filesystem operation to the shared store. -/
def applyFSOp (s : Store) : FSOp → Store
  | .mkdirAllOp fdir d m => (mkdirAllFS fdir s d m).1
  | .writeFileOp fdir name p m => (writeFileFS fdir s name p m).1
  | .createFileOp fdir name m => (createFileFS fdir s name m).1
  | .removeFileOp fdir name => (removeFileFS fdir s name).1
  | .removeAllOp fdir p => (removeAllFS fdir s p).1

/-- Run filesystem operations from a fresh `MemFS` (empty store). -/
def runFSOps (ops : List FSOp) : Store := ops.foldl applyFSOp emptyStore

/-- The file-creating operations receive a mode with the directory bit
clear (the amendment forced by the counterexample: the code stores the
caller's mode verbatim in file entries). -/
def modeOk : FSOp → Bool
  | .mkdirAllOp _ _ _ => true
  | .writeFileOp _ _ _ m => !(m.testBit 31)
  | .createFileOp _ _ m => !(m.testBit 31)
  | .removeFileOp _ _ => true
  | .removeAllOp _ _ => true

/-- Every stored entry's `isDir` flag agrees with the directory bit
(bit 31, `fs.ModeDir`) of its `mode`. -/
def DirBitOK (m : List (Str × Value)) : Prop :=
  ∀ kv ∈ m, kv.2.isDir = kv.2.mode.testBit 31

instance (m : List (Str × Value)) : Decidable (DirBitOK m) := by
  unfold DirBitOK
  infer_instance

theorem dirModeBit (mode : Nat) : (Nat.lor mode modeDir).testBit 31 = true := by
  unfold modeDir
  show (mode ||| 2 ^ 31).testBit 31 = true
  rw [Nat.testBit_lor, Nat.testBit_two_pow_self]
  simp

theorem DirBitOK_mapPut {m : List (Str × Value)} (h : DirBitOK m) {k : Str} {v : Value}
    (hv : v.isDir = v.mode.testBit 31) : DirBitOK (mapPut m k v) := by
  intro kv hkv
  rcases List.mem_cons.mp hkv with rfl | h1
  · exact hv
  · exact h _ (List.mem_filter.mp h1).1

theorem DirBitOK_storePut {s : Store} (h : DirBitOK s.values) {k : Str} {v : Value}
    (hv : v.isDir = v.mode.testBit 31) : DirBitOK (storePut s k v).values := by
  unfold storePut
  split
  · exact DirBitOK_mapPut h hv
  · exact DirBitOK_mapPut h hv

theorem DirBitOK_mkdirAllGo {fdir d : Str} {mode : Nat} :
    ∀ {steps : List (Str × Str)} {s s₁ : Store} {r : Option PathError},
      DirBitOK s.values → mkdirAllGo fdir d mode steps s = (s₁, r) →
      DirBitOK s₁.values := by
  intro steps
  induction steps with
  | nil =>
    intro s s₁ r h0 h
    injection h with h1 h2
    subst h1
    exact h0
  | cons st rest ih =>
    intro s s₁ r h0 h
    obtain ⟨joined, k⟩ := st
    simp only [mkdirAllGo] at h
    split at h
    next v hg =>
      split at h
      · exact ih h0 h
      · injection h with h1 h2
        subst h1
        exact h0
    next hg => exact ih (DirBitOK_storePut h0 (dirModeBit mode).symm) h

theorem DirBitOK_mkdirAllFS {fdir : Str} {s : Store} {d : Str} {mode : Nat} {s₁ : Store}
    {r : Option PathError} (h0 : DirBitOK s.values)
    (h : mkdirAllFS fdir s d mode = (s₁, r)) : DirBitOK s₁.values := by
  unfold mkdirAllFS at h
  split at h
  · injection h with h1 h2
    subst h1
    exact h0
  · exact DirBitOK_mkdirAllGo h0 h

theorem DirBitOK_createFS {fdir : Str} {s : Store} {name : Str} {mode : Nat} {s₁ : Store}
    {r : Except PathError Value} (h0 : DirBitOK s.values) (hm : mode.testBit 31 = false)
    (h : createFS fdir s name mode = (s₁, r)) : DirBitOK s₁.values := by
  unfold createFS at h
  split at h
  · injection h with h1 h2
    subst h1
    exact h0
  · split at h
    next s₂ e heq =>
      injection h with h1 h2
      subst h1
      exact DirBitOK_mkdirAllFS h0 heq
    next s₂ heq =>
      split at h
      next hg =>
        injection h with h1 h2
        subst h1
        exact DirBitOK_storePut (DirBitOK_mkdirAllFS h0 heq) hm.symm
      next w hg =>
        split at h
        · injection h with h1 h2
          subst h1
          exact DirBitOK_mkdirAllFS h0 heq
        · injection h with h1 h2
          subst h1
          exact DirBitOK_mkdirAllFS h0 heq

theorem DirBitOK_writeFileFS {fdir : Str} {s : Store} {name : Str} {B : List Nat}
    {mode : Nat} {s₁ : Store} {r : Except PathError Nat} (h0 : DirBitOK s.values)
    (hm : mode.testBit 31 = false) (h : writeFileFS fdir s name B mode = (s₁, r)) :
    DirBitOK s₁.values := by
  unfold writeFileFS at h
  split at h
  next s₂ e heq =>
    injection h with h1 h2
    subst h1
    exact DirBitOK_createFS h0 hm heq
  next s₂ v heq =>
    injection h with h1 h2
    subst h1
    have h₂ := DirBitOK_createFS h0 hm heq
    obtain ⟨_, hget, _⟩ := createFS_ok heq
    have hv : v.isDir = v.mode.testBit 31 := h₂ _ (mapGet_eq_some_mem hget)
    exact DirBitOK_mapPut h₂ hv

theorem DirBitOK_storeRemove {s : Store} (h : DirBitOK s.values) (k : Str) :
    DirBitOK (storeRemove s k).1.values := by
  unfold storeRemove
  split
  · exact h
  · exact fun kv hkv => h _ (List.mem_filter.mp hkv).1

theorem DirBitOK_storeRemoveAll {s : Store} (h : DirBitOK s.values) (p : Str) :
    DirBitOK (storeRemoveAll s p).values := by
  unfold storeRemoveAll
  split
  · exact h
  · exact fun kv hkv => h _ (mem_foldl_mapDelete hkv)

theorem DirBitOK_applyFSOp {s : Store} (h : DirBitOK s.values) {op : FSOp}
    (hop : modeOk op = true) : DirBitOK (applyFSOp s op).values := by
  cases op with
  | mkdirAllOp fdir d m =>
    rcases heq : mkdirAllFS fdir s d m with ⟨s₂, r⟩
    simp only [applyFSOp, heq]
    exact DirBitOK_mkdirAllFS h heq
  | writeFileOp fdir name B m =>
    have hm : m.testBit 31 = false := by simpa [modeOk] using hop
    rcases heq : writeFileFS fdir s name B m with ⟨s₂, r⟩
    simp only [applyFSOp, heq]
    exact DirBitOK_writeFileFS h hm heq
  | createFileOp fdir name m =>
    have hm : m.testBit 31 = false := by simpa [modeOk] using hop
    simp only [applyFSOp]
    unfold createFileFS
    rcases heq : createFS fdir s name m with ⟨s₂, r⟩
    cases r with
    | error e => exact DirBitOK_createFS h hm heq
    | ok v => exact DirBitOK_createFS h hm heq
  | removeFileOp fdir name =>
    simp only [applyFSOp]
    unfold removeFileFS
    split
    · exact h
    · exact DirBitOK_storeRemove h _
  | removeAllOp fdir p =>
    simp only [applyFSOp]
    unfold removeAllFS
    split
    · exact h
    · exact DirBitOK_storeRemoveAll h _

/-- C9 (amended). Along every sequence of public `MemFS` operations (under
any instance prefix) in which the file-creating operations are passed modes
with the directory bit clear, every stored entry's `isDir` flag agrees with
the directory bit of its `mode`. (With arbitrary modes the invariant fails
— see the counterexample: file entries store the caller's mode verbatim.) -/
theorem c9_dirbit_invariant : ∀ ops : List FSOp, (∀ op ∈ ops, modeOk op = true) →
    DirBitOK (runFSOps ops).values := by
  have hgen : ∀ (ops : List FSOp) (s : Store), DirBitOK s.values →
      (∀ op ∈ ops, modeOk op = true) → DirBitOK (ops.foldl applyFSOp s).values := by
    intro ops
    induction ops with
    | nil => intro s h _; exact h
    | cons op ops ih =>
      intro s h hall
      exact ih _ (DirBitOK_applyFSOp h (hall op (List.mem_cons_self _ _)))
        (fun o ho => hall o (List.mem_cons_of_mem _ ho))
  intro ops hall
  exact hgen ops emptyStore (by intro kv hkv; exact absurd hkv (List.not_mem_nil kv)) hall

/-- C9 counterexample: a single reachable operation — `WriteFile` with the
mode `fs.ModeDir` — produces a store entry whose `isDir` flag is `false`
while its mode's directory bit is set, violating the invariant as claimed
for arbitrary modes. -/
theorem c9_counterexample :
    ¬ DirBitOK (runFSOps [.writeFileOp rootStr (str "a") [] modeDir]).values := by
  decide

theorem c9_witness :
    (∀ op ∈ [FSOp.mkdirAllOp rootStr (str "d") 420,
             FSOp.writeFileOp rootStr (str "d/f") [1] 420], modeOk op = true) ∧
    DirBitOK (runFSOps [FSOp.mkdirAllOp rootStr (str "d") 420,
             FSOp.writeFileOp rootStr (str "d/f") [1] 420]).values :=
  ⟨by decide,
   c9_dirbit_invariant
     [FSOp.mkdirAllOp rootStr (str "d") 420,
      FSOp.writeFileOp rootStr (str "d/f") [1] 420] (by decide)⟩

/-! ## C8: directory-handle pagination -/

theorem prefixKeys_sublist (s : Store) (pfx : Str) : (prefixKeys s pfx).Sublist s.keys := by
  unfold prefixKeys
  split
  · exact List.nil_sublist _
  · exact (List.filter_sublist _).trans
      ((List.takeWhile_prefix _).sublist.trans (List.drop_sublist _ _))

/-- C8. For a handle on an existing directory (so that the filesystem-level
`ReadDir` yields the child list `es`): the child keys are strictly sorted;
the first handle-level `ReadDir` call fetches `es` once and behaves as the
cursor step on the cached list; once cached, `ReadDir` never consults the
store again; and the cursor step returns the next `min(n, remaining)`
entries for `n > 0` (advancing the cursor), `io.EOF` when exhausted with
`n > 0`, all remaining entries for `n ≤ 0`, and an empty success when
exhausted with `n ≤ 0`. -/
theorem c8_readDir_pagination (s s' : Store) (fdir d : Str) (es : List Value)
    (f : MemFile) (n : Int) (hWF : WF s) (hrd : readDirFS fdir s d = .ok es) :
    List.Sorted (· < ·) (prefixKeys s (memKey fdir d)) ∧
    (f.dirRead = false → f.fdir = fdir → f.name = d →
      MemFile.readDir f s n = readDirStep { f with dirRead := true, dirEntries := es } n) ∧
    (f.dirRead = true → MemFile.readDir f s' n = readDirStep f n) ∧
    (f.dirEntries = es → f.dirIndex < es.length → 0 < n →
      readDirStep f n = ({ f with dirIndex := min (f.dirIndex + n.toNat) es.length },
        .ok ((es.drop f.dirIndex).take (min n.toNat (es.length - f.dirIndex))))) ∧
    (f.dirEntries = es → es.length ≤ f.dirIndex → 0 < n →
      readDirStep f n = (f, .error .eof)) ∧
    (f.dirEntries = es → f.dirIndex < es.length → n ≤ 0 →
      readDirStep f n = ({ f with dirIndex := es.length }, .ok (es.drop f.dirIndex))) ∧
    (f.dirEntries = es → es.length ≤ f.dirIndex → n ≤ 0 →
      readDirStep f n = (f, .ok [])) := by
  refine ⟨?_, ?_, ?_, ?_, ?_, ?_, ?_⟩
  · exact (WF_sorted_lt hWF).sublist (prefixKeys_sublist s (memKey fdir d))
  · intro h1 h2 h3
    unfold MemFile.readDir
    rw [if_neg (by simp [h1]), h2, h3, hrd]
  · intro h1
    unfold MemFile.readDir
    rw [if_pos h1]
  · intro hes hidx hn
    unfold readDirStep
    rw [hes]
    rw [if_neg (by omega), if_neg (by omega : ¬ n ≤ 0)]
    dsimp only
    have harith : min (f.dirIndex + n.toNat) es.length - f.dirIndex =
        min n.toNat (es.length - f.dirIndex) := by omega
    rw [harith]
  · intro hes hidx hn
    unfold readDirStep
    rw [hes]
    rw [if_pos (by omega), if_neg (by omega : ¬ n ≤ 0)]
  · intro hes hidx hn
    unfold readDirStep
    rw [hes]
    rw [if_neg (by omega), if_pos hn]
    dsimp only
    have he : min (f.dirIndex + (es.length - f.dirIndex)) es.length = es.length := by omega
    rw [he]
    have ht : (es.drop f.dirIndex).take (es.length - f.dirIndex) = es.drop f.dirIndex :=
      List.take_of_length_le (by simp)
    rw [ht]
  · intro hes hidx hn
    unfold readDirStep
    rw [hes]
    rw [if_pos (by omega), if_pos hn]

/-- A fresh filesystem after writing `d/b` then `d/a`. -/
def c8S : Store :=
  (writeFileFS rootStr (writeFileFS rootStr emptyStore (str "d/b") [2] 420).1
    (str "d/a") [1] 420).1

/-- The child entries of `/d` in `c8S`, in sorted key order. -/
def c8Es : List Value :=
  [⟨str "/d/a", [1], 420, 0, false⟩, ⟨str "/d/b", [2], 420, 0, false⟩]

/-- A directory handle on `d` with the child list already cached. -/
def c8F : MemFile :=
  { fdir := rootStr, name := str "d", buf := none, mode := Nat.lor 420 modeDir,
    dirRead := true, dirEntries := c8Es, dirIndex := 0, wrote := false }

theorem c8_witness :
    List.Sorted (· < ·) (prefixKeys c8S (memKey rootStr (str "d"))) ∧
    readDirStep c8F 1 =
      ({ c8F with dirIndex := min (c8F.dirIndex + (1 : Int).toNat) c8Es.length },
       .ok ((c8Es.drop c8F.dirIndex).take
         (min (1 : Int).toNat (c8Es.length - c8F.dirIndex)))) :=
  ⟨(c8_readDir_pagination c8S emptyStore rootStr (str "d") c8Es c8F 1
      (by decide) (by decide)).1,
   (c8_readDir_pagination c8S emptyStore rootStr (str "d") c8Es c8F 1
      (by decide) (by decide)).2.2.2.1 (by decide) (by decide) (by decide)⟩
